import Mathlib

/-! go-spring/barky : hierarchical key storage (`store.go`)

A shallow embedding of `Storage` (`NewStorage`, `AddFile`, `SubKeys`, `Has`, `Set`)
and the properties of it that are proved below.

Conventions of the embedding.

* A Go `string` is a Lean `String`.  Go compares and sorts strings byte-wise; on
  well-formed UTF-8 that order coincides with the code-point order of `String`.
* A Go `map[string]T` is an association list `List (String × T)` read with `mapGet`
  and written with `mapSet`; `mapSet` overwrites an existing entry in place and
  appends a new one, so the keys of a map built from the empty map stay distinct.
* A pointer `*treeNode` is an `Option treeNode`, `none` being `nil`.
* `int8` values are integers; the conversion `int8(n)` is `int8` below.
* A method that mutates its receiver returns the new `Storage` next to its result,
  also when it returns an error: nothing of the in-place writes is dropped.
* Go's `error` is the type `Error`; a run-time panic is the value `Error.panic`.
-/

namespace Barky

/-! ## Path codec

`store.go` uses `Path`, `PathType`, `SplitPath` and `JoinPath`, which are declared
in another file of the package.  They are modelled from the specification. -/

/-- Modelled from the spec: the enumeration `PathType` (`Key` for an object member,
`Index` for an array element), declared outside `store.go`. -/
inductive PathType where
  | Key
  | Index
  deriving DecidableEq, Repr, Inhabited

/-- Modelled from the spec: a path segment `Path{Type, Elem}`, declared outside
`store.go`; the field `Type` is written `Typ`. -/
structure Path where
  Typ : PathType
  Elem : String
  deriving DecidableEq, Repr, Inhabited

/-- Go's `error` values as `store.go` produces them: the parse error handed on from
`SplitPath` (its text is not part of `store.go`), an error built by `errors.New` or
`fmt.Errorf` with its message, and a run-time panic. -/
inductive Error where
  | parse (key : String)
  | text (msg : String)
  | panic
  deriving DecidableEq, Repr

deriving instance DecidableEq for Except

/-- The states of the decoder: nothing read yet, inside a key segment (characters read
so far), just after a `.`, inside brackets (digits read so far), just after a `]`. -/
inductive SplitState where
  | start
  | inKey (acc : List Char)
  | afterDot
  | inIndex (acc : List Char)
  | afterIndex

/-- Modelled from the spec: the scanning loop of `SplitPath` (the spec's Decode), which
is declared outside `store.go`.  A key segment is a non-empty run of characters other
than `.`, `[`, `]`, the first segment or preceded by `.`; an index segment is `[`, one
or more decimal digits, `]`, written directly after the previous segment.  The result
is `none` when a `.` is followed by `[`, `.` or the end, when brackets are unmatched or
hold something that is not a non-empty digit string, and when a key segment follows a
`]` without a `.`. -/
def splitLoop : SplitState → List Char → Option (List Path)
  | .start, [] => none
  | .start, c :: cs =>
    if c = '[' then splitLoop (.inIndex []) cs
    else if c = '.' ∨ c = ']' then none
    else splitLoop (.inKey [c]) cs
  | .inKey acc, [] => some [⟨.Key, String.mk acc⟩]
  | .inKey acc, c :: cs =>
    if c = '.' then (splitLoop .afterDot cs).map (⟨.Key, String.mk acc⟩ :: ·)
    else if c = '[' then (splitLoop (.inIndex []) cs).map (⟨.Key, String.mk acc⟩ :: ·)
    else if c = ']' then none
    else splitLoop (.inKey (acc ++ [c])) cs
  | .afterDot, [] => none
  | .afterDot, c :: cs =>
    if c = '.' ∨ c = '[' ∨ c = ']' then none
    else splitLoop (.inKey [c]) cs
  | .inIndex _, [] => none
  | .inIndex acc, c :: cs =>
    if c = ']' then
      if acc = [] then none
      else (splitLoop .afterIndex cs).map (⟨.Index, String.mk acc⟩ :: ·)
    else if c.isDigit then splitLoop (.inIndex (acc ++ [c])) cs
    else none
  | .afterIndex, [] => some []
  | .afterIndex, c :: cs =>
    if c = '[' then splitLoop (.inIndex []) cs
    else if c = '.' then splitLoop .afterDot cs
    else none

/-- Modelled from the spec: `SplitPath` (the spec's Decode), declared outside
`store.go`: the ordered segments of a path string, or a parse error. -/
def SplitPath (key : String) : Except Error (List Path) :=
  match splitLoop .start key.toList with
  | some path => .ok path
  | none => .error (.parse key)

/-- Modelled from the spec: the segments of `JoinPath` after the first one: a key
segment is prefixed with `.`, an index segment is rendered as `[Elem]`. -/
def joinRest : List Path → String
  | [] => ""
  | ⟨.Key, e⟩ :: ps => "." ++ e ++ joinRest ps
  | ⟨.Index, e⟩ :: ps => "[" ++ e ++ "]" ++ joinRest ps

/-- Modelled from the spec: `JoinPath` (the spec's Encode), declared outside
`store.go`: the canonical string of a segment sequence. -/
def JoinPath : List Path → String
  | [] => ""
  | ⟨.Key, e⟩ :: ps => e ++ joinRest ps
  | ⟨.Index, e⟩ :: ps => "[" ++ e ++ "]" ++ joinRest ps

/-! ## Maps -/

/-- The lookup `v, ok := m[k]` of a Go map. -/
def mapGet {β : Type} : List (String × β) → String → Option β
  | [], _ => none
  | (k', v) :: m, k => if k' = k then some v else mapGet m k

/-- The assignment `m[k] = v` of a Go map. -/
def mapSet {β : Type} : List (String × β) → String → β → List (String × β)
  | [], k, v => [(k, v)]
  | (k', v') :: m, k, v => if k' = k then (k', v) :: m else (k', v') :: mapSet m k v

/-- The keys of a Go map. -/
def mapKeys {β : Type} (m : List (String × β)) : List String := m.map Prod.fst

/-! ## Data model of `store.go` -/

/-- The struct `treeNode`: the path type of the children and the children by segment
text; a child is a pointer, `none` (nil) marking a leaf. -/
inductive treeNode where
  | mk (Typ : PathType) (Data : List (String × Option treeNode))

/-- The field `Type` of a `treeNode`. -/
def treeNode.Typ : treeNode → PathType
  | .mk t _ => t

/-- The field `Data` of a `treeNode`. -/
def treeNode.Data : treeNode → List (String × Option treeNode)
  | .mk _ d => d

/-- The struct `ValueInfo`. -/
structure ValueInfo where
  File : Int
  Value : String
  deriving DecidableEq, Repr

/-- The struct `Storage`. -/
structure Storage where
  root : Option treeNode
  data : List (String × ValueInfo)
  file : List (String × Int)

/-- The conversion `int8(n)` of a Go `int`: reduction into the range -128..127. -/
def int8 (n : Int) : Int := (n + 128) % 256 - 128

/-- The function `NewStorage`: empty maps, no root. -/
def NewStorage : Storage := { root := none, data := [], file := [] }

/-- The method `RawData`: the flat map itself. -/
def RawData (s : Storage) : List (String × ValueInfo) := s.data

/-- The method `RawFile`: the file table itself. -/
def RawFile (s : Storage) : List (String × Int) := s.file

/-- The method `AddFile`: the id of a known file, or `int8(len(s.file))` recorded for a
new one. -/
def AddFile (s : Storage) (file : String) : Storage × Int :=
  match mapGet s.file file with
  | some idx => (s, idx)
  | none =>
    let idx := int8 s.file.length
    ({ s with file := mapSet s.file file idx }, idx)

/-- The error `fmt.Errorf("property conflict at path %s", p)`. -/
def conflictError (p : String) : Error := .text ("property conflict at path " ++ p)

/-- How the loop of `SubKeys` ends: with a conflict error, with `return nil, nil` at an
absent child, or by running through the path with the final value of `n`. -/
inductive WalkResult where
  | conflict (e : Error)
  | absent
  | done (n : Option treeNode)

/-- The loop of `SubKeys` from step `i`, with `rest` the segments still to visit and
`n` the current node. -/
def subKeysLoop (path : List Path) : Nat → List Path → Option treeNode → WalkResult
  | _, [], n => .done n
  | i, _ :: _, none => .conflict (conflictError (JoinPath (path.take (i + 1))))
  | i, pathNode :: rest, some (.mk t d) =>
    if pathNode.Typ ≠ t then .conflict (conflictError (JoinPath (path.take (i + 1))))
    else
      match mapGet d pathNode.Elem with
      | none => .absent
      | some v => subKeysLoop path (i + 1) rest v

/-- The function `sort.Strings`: the strings in ascending order, compared character by
character (the order `≤` of `String`, see `String.le_iff_toList_le`). -/
def sortStrings (keys : List String) : List String :=
  keys.insertionSort (fun a b => a.toList ≤ b.toList)

/-- The method `SubKeys`: the result slice (`none` is the nil slice) and the error. -/
def SubKeys (s : Storage) (key : String) : Option (List String) × Option Error :=
  match (if key ≠ "" then SplitPath key else .ok []) with
  | .error err => (none, some err)
  | .ok path =>
    if s.root.isNone then (none, none)
    else
      match subKeysLoop path 0 path s.root with
      | .conflict e => (none, some e)
      | .absent => (none, none)
      | .done none => (none, some (.text ("property path " ++ key ++ " not found")))
      | .done (some n) => (some (sortStrings (mapKeys n.Data)), none)

/-- The loop of `Has` on the segments still to visit, with `n` the current node. -/
def hasLoop : List Path → Option treeNode → Bool
  | [], _ => true
  | _ :: _, none => false
  | node :: rest, some (.mk t d) =>
    if node.Typ ≠ t then false
    else
      match mapGet d node.Elem with
      | none => false
      | some v => hasLoop rest v

/-- The method `Has`: the guard on an empty key or an absent root, the fast path through
the flat map, then the decoded walk. -/
def Has (s : Storage) (key : String) : Bool :=
  if key = "" ∨ s.root.isNone then false
  else if (mapGet s.data key).isSome then true
  else
    match SplitPath key with
    | .error _ => false
    | .ok path => hasLoop path s.root

/-- The child that step `i` of the loop of `Set` stores for a missing segment: a new
node typed by `path[i+1]` when `i < len(path)-1` (which keeps `i+1` in range), and nil
at the last segment. -/
def newChild (path : List Path) (i : Nat) : Option treeNode :=
  if i < path.length - 1 then some (.mk (path.getD (i + 1) default).Typ []) else none

/-- The loop of `Set` from step `i`, with `rest` the segments still to visit and `n`
the current node.  The first component is the node `n` as the loop leaves it (the
in-place writes to it and below it applied, a child found or stored at this step being
written back with the writes below it); the second is the error the loop returns, or
the final value of the loop variable `n`. -/
def setLoop (path : List Path) :
    Nat → List Path → Option treeNode → Option treeNode × Except Error (Option treeNode)
  | _, [], n => (n, .ok n)
  | i, _ :: _, none => (none, .error (conflictError (JoinPath (path.take (i + 1)))))
  | i, pathNode :: rest, some (.mk t d) =>
    if pathNode.Typ ≠ t then
      (some (.mk t d), .error (conflictError (JoinPath (path.take (i + 1)))))
    else
      match mapGet d pathNode.Elem with
      | some v =>
        let r := setLoop path (i + 1) rest v
        (some (.mk t (mapSet d pathNode.Elem r.1)), r.2)
      | none =>
        let v := newChild path i
        let r := setLoop path (i + 1) rest v
        (some (.mk t (mapSet d pathNode.Elem r.1)), r.2)

/-- The method `Set`: the storage after the call and the error (`none` is a nil error).
Indexing `path[0]` for an empty `path` is the panic. -/
def Set (s : Storage) (key : String) (val : String) (file : Int) :
    Storage × Option Error :=
  if key = "" then (s, some (.text "key is empty"))
  else
    match SplitPath key with
    | .error err => (s, some err)
    | .ok path =>
      match (match s.root with
             | some r => Except.ok (some r)
             | none =>
               match path with
               | [] => Except.error Error.panic
               | p0 :: _ => Except.ok (some (treeNode.mk p0.Typ []))) with
      | .error e => (s, some e)
      | .ok root =>
        let r := setLoop path 0 path root
        match r.2 with
        | .error e => ({ s with root := r.1 }, some e)
        | .ok (some _) => ({ s with root := r.1 }, some (conflictError key))
        | .ok none =>
          ({ s with root := r.1, data := mapSet s.data key ⟨file, val⟩ }, none)

/-! ## Reachable states and the walk through the tree -/

/-- The storages that `NewStorage` followed by calls of `Set` and `AddFile` produces;
a call of `Set` counts whether it returns an error or not. -/
inductive Reachable : Storage → Prop where
  | new : Reachable NewStorage
  | set (s : Storage) (key val : String) (file : Int) :
      Reachable s → Reachable (Set s key val file).1
  | addFile (s : Storage) (file : String) : Reachable s → Reachable (AddFile s file).1

/-- The tree position that the segments `path` lead to from the node `n`, every step
requiring a node (not nil) of the segment's type with a child for the segment's text:
`some none` is a leaf marker, `some (some m)` a container, `none` no position. -/
def walk : List Path → Option treeNode → Option (Option treeNode)
  | [], n => some n
  | _ :: _, none => none
  | node :: rest, some (.mk t d) =>
    if node.Typ ≠ t then none
    else
      match mapGet d node.Elem with
      | none => none
      | some v => walk rest v

/-- The storage after the calls `AddFile(names[0])`, `AddFile(names[1])`, ... -/
def addFiles (s : Storage) (names : List String) : Storage :=
  names.foldl (fun t name => (AddFile t name).1) s

/-- The node `m` cannot be entered with the segment `x`: it is nil or of another type. -/
def blocks (m : Option treeNode) (x : Path) : Prop :=
  m = none ∨ ∃ t d, m = some (.mk t d) ∧ x.Typ ≠ t

/-- The node the loop of `Set` starts from: the root, or the root that `Set` makes for
an empty tree. -/
def rootFor (s : Storage) (path : List Path) : Option treeNode :=
  match s.root with
  | some r => some r
  | none => some (.mk (path.headD default).Typ [])

/-- The flat map and the tree agree: every key of the flat map decodes to a path that
ends on a leaf marker, every leaf marker is the end of the path of a key of the flat
map, every container has a leaf marker below it, and the child names of a container
are distinct. -/
structure Inv (s : Storage) : Prop where
  leafOfKey : ∀ k, k ∈ mapKeys s.data →
    ∃ path, SplitPath k = .ok path ∧ walk path s.root = some none
  keyOfLeaf : ∀ path, path ≠ [] → walk path s.root = some none →
    ∃ k, k ∈ mapKeys s.data ∧ SplitPath k = .ok path
  leafBelow : ∀ path m, walk path s.root = some (some m) →
    ∃ more, walk (path ++ more) s.root = some none
  nodupKeys : ∀ path m, walk path s.root = some (some m) → (mapKeys m.Data).Nodup

/-- A storage whose file table holds the 128 names "", "a", "aa", ... with the ids
0, 1, 2, ..., 127: the table that 128 calls of `AddFile` with these names build. -/
def storage128 : Storage :=
  { root := none, data := [],
    file := (List.range 128).map (fun n => (String.mk (List.replicate n 'a'), (n : Int))) }

/-- The storages that calls of `Set` and `AddFile` produce from the storage `s0`. -/
inductive ReachableFrom (s0 : Storage) : Storage → Prop where
  | refl : ReachableFrom s0 s0
  | set (s : Storage) (key val : String) (file : Int) :
      ReachableFrom s0 s → ReachableFrom s0 (Set s key val file).1
  | addFile (s : Storage) (file : String) :
      ReachableFrom s0 s → ReachableFrom s0 (AddFile s file).1

/-- A result slice of `SubKeys` read as a list, the nil slice being the empty list. -/
def sliceToList (r : Option (List String)) : List String := r.getD []

/-- The tree position that the segment texts `elems` lead to from the node `n`, whatever
the types of the nodes on the way. -/
def walkElems : List String → Option treeNode → Option (Option treeNode)
  | [], n => some n
  | _ :: _, none => none
  | e :: rest, some (.mk _ d) =>
    match mapGet d e with
    | none => none
    | some v => walkElems rest v

/-- Every position of the tree `n` is a position of the tree `n2`, and a container of `n`
is a container of `n2` with at least the same child names. -/
def TreeLe (n n2 : Option treeNode) : Prop :=
  ∀ qs m, walk qs n = some m → ∃ m2, walk qs n2 = some m2 ∧
    ∀ c, m = some c → ∃ c2, m2 = some c2 ∧ ∀ e, e ∈ mapKeys c.Data → e ∈ mapKeys c2.Data

/-- Modelled from the spec: the segments that the decoder produces.  The text of a key
segment is not empty and holds none of `.`, `[`, `]`; the text of an index segment is a
non-empty string of decimal digits. -/
def Path.WF : Path → Prop
  | ⟨.Key, e⟩ => e.data ≠ [] ∧ ∀ c ∈ e.data, c ≠ '.' ∧ c ≠ '[' ∧ c ≠ ']'
  | ⟨.Index, e⟩ => e.data ≠ [] ∧ ∀ c ∈ e.data, c.isDigit = true

/-! ## Lemmas on maps -/

theorem mapGet_mapSet_self {β : Type} (m : List (String × β)) (k : String) (v : β) :
    mapGet (mapSet m k v) k = some v := by
  induction m with
  | nil => simp [mapSet, mapGet]
  | cons a m ih =>
    obtain ⟨k1, v1⟩ := a
    by_cases h : k1 = k
    · simp [mapSet, mapGet, h]
    · simp [mapSet, mapGet, h, ih]

theorem mapGet_mapSet_ne {β : Type} (m : List (String × β)) (k k2 : String) (v : β)
    (h : k2 ≠ k) : mapGet (mapSet m k v) k2 = mapGet m k2 := by
  induction m with
  | nil =>
    have h2 : ¬ k = k2 := fun e => h e.symm
    simp [mapSet, mapGet, h2]
  | cons a m ih =>
    obtain ⟨k1, v1⟩ := a
    by_cases h1 : k1 = k
    · subst h1
      have h2 : ¬ k1 = k2 := fun e => h e.symm
      simp [mapSet, mapGet, h2]
    · by_cases h3 : k1 = k2
      · subst h3
        simp [mapSet, mapGet, h1]
      · simp [mapSet, mapGet, h1, h3, ih]

theorem mapSet_eq_self {β : Type} (m : List (String × β)) (k : String) (v : β)
    (h : mapGet m k = some v) : mapSet m k v = m := by
  induction m with
  | nil => simp [mapGet] at h
  | cons a m ih =>
    obtain ⟨k1, v1⟩ := a
    by_cases h1 : k1 = k
    · simp [mapGet, h1] at h
      simp [mapSet, h1, h]
    · simp [mapGet, h1] at h
      simp [mapSet, h1, ih h]

theorem mapGet_eq_none_iff {β : Type} (m : List (String × β)) (k : String) :
    mapGet m k = none ↔ k ∉ mapKeys m := by
  induction m with
  | nil => simp [mapGet, mapKeys]
  | cons a m ih =>
    obtain ⟨k1, v1⟩ := a
    by_cases h1 : k1 = k
    · simp [mapGet, mapKeys, h1]
    · have h2 : ¬ k = k1 := fun e => h1 e.symm
      simp only [mapGet, h1, if_false, ih]
      simp [mapKeys, h2]

theorem mapGet_isSome_iff {β : Type} (m : List (String × β)) (k : String) :
    (mapGet m k).isSome = true ↔ k ∈ mapKeys m := by
  have h := mapGet_eq_none_iff m k
  cases hg : mapGet m k with
  | none => simp [hg] at h; simp [h]
  | some v => simp [hg] at h; simp [h]

theorem mapKeys_mapSet_of_some {β : Type} (m : List (String × β)) (k : String) (v v0 : β)
    (h : mapGet m k = some v0) : mapKeys (mapSet m k v) = mapKeys m := by
  induction m with
  | nil => simp [mapGet] at h
  | cons a m ih =>
    obtain ⟨k1, v1⟩ := a
    by_cases h1 : k1 = k
    · simp [mapSet, mapKeys, h1]
    · simp [mapGet, h1] at h
      have := ih h
      simp [mapKeys] at this
      simp [mapSet, mapKeys, h1, this]

theorem mapKeys_mapSet_of_none {β : Type} (m : List (String × β)) (k : String) (v : β)
    (h : mapGet m k = none) : mapKeys (mapSet m k v) = mapKeys m ++ [k] := by
  induction m with
  | nil => simp [mapSet, mapKeys]
  | cons a m ih =>
    obtain ⟨k1, v1⟩ := a
    by_cases h1 : k1 = k
    · simp [mapGet, h1] at h
    · simp [mapGet, h1] at h
      have := ih h
      simp [mapKeys] at this
      simp [mapSet, mapKeys, h1, this]

theorem mem_mapKeys_mapSet {β : Type} (m : List (String × β)) (k k2 : String) (v : β) :
    k2 ∈ mapKeys (mapSet m k v) ↔ k2 = k ∨ k2 ∈ mapKeys m := by
  cases h : mapGet m k with
  | none =>
    rw [mapKeys_mapSet_of_none m k v h]
    simp [or_comm]
  | some v0 =>
    rw [mapKeys_mapSet_of_some m k v v0 h]
    have hk : k ∈ mapKeys m := (mapGet_isSome_iff m k).1 (by simp [h])
    constructor
    · intro h2; exact Or.inr h2
    · rintro (h2 | h2)
      · rw [h2]; exact hk
      · exact h2

theorem nodup_mapKeys_mapSet {β : Type} (m : List (String × β)) (k : String) (v : β)
    (h : (mapKeys m).Nodup) : (mapKeys (mapSet m k v)).Nodup := by
  cases hg : mapGet m k with
  | none =>
    rw [mapKeys_mapSet_of_none m k v hg]
    have hk : k ∉ mapKeys m := (mapGet_eq_none_iff m k).1 hg
    rw [List.nodup_append]
    refine ⟨h, by simp, ?_⟩
    intro a ha hb
    simp at hb
    exact hk (hb ▸ ha)
  | some v0 =>
    rw [mapKeys_mapSet_of_some m k v v0 hg]
    exact h

/-! ## Lemmas on the codec -/

theorem splitLoop_inKey_ne_nil (cs : List Char) :
    ∀ (acc : List Char) (ps : List Path), splitLoop (.inKey acc) cs = some ps → ps ≠ [] := by
  induction cs with
  | nil =>
    intro acc ps h
    simp [splitLoop] at h
    simp [← h]
  | cons c cs ih =>
    intro acc ps h
    simp only [splitLoop] at h
    split_ifs at h with h1 h2 h3
    · cases hr : splitLoop .afterDot cs with
      | none => simp [hr] at h
      | some r => simp [hr] at h; simp [← h]
    · cases hr : splitLoop (.inIndex []) cs with
      | none => simp [hr] at h
      | some r => simp [hr] at h; simp [← h]
    · exact ih _ _ h

theorem splitLoop_inIndex_ne_nil (cs : List Char) :
    ∀ (acc : List Char) (ps : List Path),
      splitLoop (.inIndex acc) cs = some ps → ps ≠ [] := by
  induction cs with
  | nil =>
    intro acc ps h
    simp [splitLoop] at h
  | cons c cs ih =>
    intro acc ps h
    simp only [splitLoop] at h
    split_ifs at h with h1 h2 h3
    · cases hr : splitLoop .afterIndex cs with
      | none => simp [hr] at h
      | some r => simp [hr] at h; simp [← h]
    · exact ih _ _ h

theorem SplitPath_ne_nil (key : String) (path : List Path)
    (h : SplitPath key = .ok path) : path ≠ [] := by
  unfold SplitPath at h
  generalize hr : splitLoop .start key.toList = o at h
  cases o with
  | none => cases h
  | some r =>
    cases h
    change splitLoop .start key.data = some path at hr
    cases hk : key.data with
    | nil => simp [hk, splitLoop] at hr
    | cons c cs =>
      rw [hk] at hr
      simp only [splitLoop] at hr
      split_ifs at hr with h1 h2
      · exact splitLoop_inIndex_ne_nil _ _ _ hr
      · exact splitLoop_inKey_ne_nil _ _ _ hr

theorem SplitPath_empty : SplitPath "" = .error (.parse "") := by decide

theorem SplitPath_ok_ne_empty (key : String) (path : List Path)
    (h : SplitPath key = .ok path) : key ≠ "" := by
  intro e
  rw [e, SplitPath_empty] at h
  cases h

/-! ## Lemmas on the walk -/

theorem walk_append (ps qs : List Path) :
    ∀ n : Option treeNode, walk (ps ++ qs) n = (walk ps n).bind (walk qs) := by
  induction ps with
  | nil => intro n; simp [walk]
  | cons p ps ih =>
    intro n
    cases n with
    | none => simp [walk]
    | some nd =>
      obtain ⟨t, d⟩ := nd
      simp only [List.cons_append, walk]
      split_ifs with h1
      · simp
      · cases hg : mapGet d p.Elem with
        | none => simp
        | some v => simp [ih]

theorem walk_none_eq (ps : List Path) (m : Option treeNode)
    (h : walk ps none = some m) : ps = [] ∧ m = none := by
  cases ps with
  | nil => simp [walk] at h; exact ⟨rfl, h.symm⟩
  | cons p ps => simp [walk] at h

theorem walk_cons_some (p : Path) (ps : List Path) (t : PathType)
    (d : List (String × Option treeNode)) (m : Option treeNode)
    (h : walk (p :: ps) (some (.mk t d)) = some m) :
    p.Typ = t ∧ ∃ v, mapGet d p.Elem = some v ∧ walk ps v = some m := by
  simp only [walk] at h
  split_ifs at h with h1
  · cases hg : mapGet d p.Elem with
    | none => simp [hg] at h
    | some v =>
      simp [hg] at h
      exact ⟨not_not.1 h1, v, rfl, h⟩

theorem hasLoop_eq_walk (ps : List Path) :
    ∀ n : Option treeNode, hasLoop ps n = (walk ps n).isSome := by
  induction ps with
  | nil => intro n; simp [hasLoop, walk]
  | cons p ps ih =>
    intro n
    cases n with
    | none => simp [hasLoop, walk]
    | some nd =>
      obtain ⟨t, d⟩ := nd
      simp only [hasLoop, walk]
      split_ifs with h1
      · simp
      · cases hg : mapGet d p.Elem with
        | none => simp
        | some v => simp [ih]

/-! ## Lemmas on the loop of `Set` -/

theorem drop_succ_of_drop_eq_cons (path : List Path) (i : Nat) (p : Path) (tl : List Path)
    (h : path.drop i = p :: tl) : path.drop (i + 1) = tl := by
  have h2 := congrArg (List.drop 1) h
  simpa [List.drop_drop, Nat.add_comm] using h2

theorem length_of_drop_eq_cons (path : List Path) (i : Nat) (p : Path) (tl : List Path)
    (h : path.drop i = p :: tl) : path.length = i + 1 + tl.length := by
  have h2 := congrArg List.length h
  simp at h2
  omega

theorem getD_of_drop_eq_cons (path : List Path) (i : Nat) (p : Path) (tl : List Path)
    (h : path.drop i = p :: tl) : path.getD i default = p := by
  have h1 : (path.drop i)[0]? = some p := by rw [h]; simp
  rw [List.getElem?_drop] at h1
  simp at h1
  simp [List.getD, h1]

/-- One step of the loop of `Set` at a node of the segment's type: the child `v` is the
one found, or the one `newChild` makes. -/
theorem setLoop_cons (path : List Path) (i : Nat) (p : Path) (tl : List Path)
    (t : PathType) (d : List (String × Option treeNode)) (h : p.Typ = t) :
    setLoop path i (p :: tl) (some (.mk t d)) =
      (some (.mk t (mapSet d p.Elem
        (setLoop path (i + 1) tl ((mapGet d p.Elem).getD (newChild path i))).1)),
       (setLoop path (i + 1) tl ((mapGet d p.Elem).getD (newChild path i))).2) := by
  simp only [setLoop, h, ne_eq, not_true_eq_false, if_false]
  cases hg : mapGet d p.Elem with
  | none => simp
  | some v => simp

/-- A walk that resolves is followed by the loop of `Set` without any write. -/
theorem setLoop_of_walk (path : List Path) (rest : List Path) :
    ∀ (i : Nat) (n m : Option treeNode), walk rest n = some m →
      setLoop path i rest n = (n, .ok m) := by
  induction rest with
  | nil =>
    intro i n m h
    simp [walk] at h
    simp [setLoop, h]
  | cons p tl ih =>
    intro i n m h
    cases n with
    | none => simp [walk] at h
    | some nd =>
      obtain ⟨t, d⟩ := nd
      obtain ⟨ht, v, hv, hw⟩ := walk_cons_some p tl t d m h
      rw [setLoop_cons path i p tl t d ht, hv]
      simp only [Option.getD_some]
      rw [ih (i + 1) v m hw]
      simp [mapSet_eq_self d p.Elem v hv]

/-- When the segments `common` resolve and the next segment cannot enter the node
reached, the loop of `Set` returns the conflict error for the segments up to that one
and writes nothing. -/
theorem setLoop_conflict (path : List Path) (common : List Path) (x : Path)
    (tl : List Path) :
    ∀ (i : Nat) (n m : Option treeNode), walk common n = some m → blocks m x →
      setLoop path i (common ++ x :: tl) n =
        (n, .error (conflictError (JoinPath (path.take (i + common.length + 1))))) := by
  induction common with
  | nil =>
    intro i n m h hb
    simp [walk] at h
    subst h
    rcases hb with hb | ⟨t, d, hb, hx⟩
    · subst hb
      simp [setLoop]
    · subst hb
      simp [setLoop, hx]
  | cons p cs ih =>
    intro i n m h hb
    cases n with
    | none => simp [walk] at h
    | some nd =>
      obtain ⟨t, d⟩ := nd
      obtain ⟨ht, v, hv, hw⟩ := walk_cons_some p cs t d m h
      rw [List.cons_append, setLoop_cons path i p _ t d ht, hv]
      simp only [Option.getD_some]
      rw [ih (i + 1) v m hw hb]
      have e : i + 1 + cs.length + 1 = i + (p :: cs).length + 1 := by simp; omega
      simp [mapSet_eq_self d p.Elem v hv, e]

theorem walk_newChild_leaf (path : List Path) (i : Nat) (p : Path) (tl qs : List Path)
    (h : path.drop i = p :: tl) (hw : walk qs (newChild path i) = some none) : qs = tl := by
  have hl := length_of_drop_eq_cons path i p tl h
  unfold newChild at hw
  split_ifs at hw with h1
  · cases qs with
    | nil => simp [walk] at hw
    | cons q qs => simp [walk, mapGet] at hw
  · have h2 := (walk_none_eq qs none hw).1
    have h3 : tl.length = 0 := by omega
    rw [h2]
    exact (List.length_eq_zero.1 h3).symm

theorem walk_newChild_container (path : List Path) (i : Nat) (p : Path)
    (tl qs : List Path) (m : treeNode)
    (h : path.drop i = p :: tl) (hw : walk qs (newChild path i) = some (some m)) :
    qs = [] ∧ tl ≠ [] ∧ m.Data = [] := by
  have hl := length_of_drop_eq_cons path i p tl h
  unfold newChild at hw
  split_ifs at hw with h1
  · cases qs with
    | nil =>
      simp [walk] at hw
      refine ⟨rfl, ?_, ?_⟩
      · intro e
        rw [e] at hl
        simp at hl
        omega
      · rw [← hw]; rfl
    | cons q qs => simp [walk, mapGet] at hw
  · have h2 := (walk_none_eq qs _ hw).2
    cases h2

/-- Once a step of the loop of `Set` has stored a new child, the loop runs to its end
and ends on a leaf marker. -/
theorem setLoop_newChild (path : List Path) (rest : List Path) :
    ∀ (i : Nat) (p : Path), path.drop i = p :: rest →
      (setLoop path (i + 1) rest (newChild path i)).2 = .ok none := by
  induction rest with
  | nil =>
    intro i p h
    have hl := length_of_drop_eq_cons path i p [] h
    have h1 : ¬ i < path.length - 1 := by simp at hl; omega
    simp [newChild, h1, setLoop]
  | cons q tl ih =>
    intro i p h
    have hl := length_of_drop_eq_cons path i p (q :: tl) h
    have h1 : i < path.length - 1 := by simp at hl; omega
    have hd := drop_succ_of_drop_eq_cons path i p (q :: tl) h
    have hq := getD_of_drop_eq_cons path (i + 1) q tl hd
    simp only [newChild, h1, if_true, hq]
    rw [setLoop_cons path (i + 1) q tl q.Typ [] rfl]
    simp only [mapGet, Option.getD_none]
    exact ih (i + 1) q hd

/-- A call of the loop of `Set` that does not end on a leaf marker (it returns an error,
or ends on a container) has written nothing. -/
theorem setLoop_unchanged (path : List Path) (rest : List Path) :
    ∀ (i : Nat) (n : Option treeNode), path.drop i = rest →
      (setLoop path i rest n).2 ≠ .ok none → (setLoop path i rest n).1 = n := by
  induction rest with
  | nil => intro i n _ _; simp [setLoop]
  | cons p tl ih =>
    intro i n hd h
    cases n with
    | none => simp [setLoop]
    | some nd =>
      obtain ⟨t, d⟩ := nd
      by_cases ht : p.Typ = t
      · rw [setLoop_cons path i p tl t d ht] at h ⊢
        have hd2 := drop_succ_of_drop_eq_cons path i p tl hd
        cases hg : mapGet d p.Elem with
        | none =>
          rw [hg] at h
          simp only [Option.getD_none] at h
          exact absurd (setLoop_newChild path tl i p hd) h
        | some v =>
          rw [hg] at h
          simp only [Option.getD_some] at h ⊢
          rw [ih (i + 1) v hd2 h, mapSet_eq_self d p.Elem v hg]
      · simp [setLoop, ht]

/-- The leaf markers after a successful run of the loop of `Set`: those there were, and
the end of the path. -/
theorem walk_setLoop_leaf (path : List Path) (rest : List Path) :
    ∀ (i : Nat) (n : Option treeNode), path.drop i = rest →
      (setLoop path i rest n).2 = .ok none →
      ∀ qs, walk qs (setLoop path i rest n).1 = some none ↔
        (walk qs n = some none ∨ qs = rest) := by
  induction rest with
  | nil =>
    intro i n _ h qs
    simp [setLoop] at h
    subst h
    simp only [setLoop]
    constructor
    · intro h1; exact Or.inl h1
    · rintro (h1 | h1)
      · exact h1
      · subst h1; rfl
  | cons p tl ih =>
    intro i n hd h qs
    cases n with
    | none => simp [setLoop] at h
    | some nd =>
      obtain ⟨t, d⟩ := nd
      by_cases ht : p.Typ = t
      · rw [setLoop_cons path i p tl t d ht] at h ⊢
        have hd2 := drop_succ_of_drop_eq_cons path i p tl hd
        have IH := ih (i + 1) _ hd2 h
        cases qs with
        | nil => simp [walk]
        | cons q qs =>
          by_cases hq : q.Typ = t
          · by_cases he : q.Elem = p.Elem
            · have hqp : q = p := by
                cases q; cases p; simp_all
              subst hqp
              simp only [walk, hq, ne_eq, not_true_eq_false, if_false,
                mapGet_mapSet_self]
              rw [IH qs]
              cases hg : mapGet d q.Elem with
              | none =>
                simp only [Option.getD_none, List.cons.injEq, true_and]
                constructor
                · rintro (h1 | h1)
                  · exact Or.inr (walk_newChild_leaf path i q tl qs hd h1)
                  · exact Or.inr h1
                · rintro (h1 | h1)
                  · cases h1
                  · exact Or.inr h1
              | some v => simp
            · have hne : q ≠ p := fun e => he (by rw [e])
              simp only [walk, hq, ne_eq, not_true_eq_false, if_false,
                mapGet_mapSet_ne d p.Elem q.Elem _ he, List.cons.injEq, hne,
                false_and, or_false]
          · have hne : q ≠ p := fun e => hq (by rw [e]; exact ht)
            simp [walk, hq, hne]
      · simp [setLoop, ht] at h

/-- The containers after a successful run of the loop of `Set`: those there were, and
the positions strictly above the end of the path. -/
theorem walk_setLoop_container (path : List Path) (rest : List Path) :
    ∀ (i : Nat) (n : Option treeNode), path.drop i = rest →
      (setLoop path i rest n).2 = .ok none →
      ∀ qs m, walk qs (setLoop path i rest n).1 = some (some m) →
        (qs <+: rest ∧ qs ≠ rest) ∨ ∃ m0, walk qs n = some (some m0) := by
  induction rest with
  | nil =>
    intro i n _ _ qs m hw
    simp only [setLoop] at hw
    exact Or.inr ⟨m, hw⟩
  | cons p tl ih =>
    intro i n hd h qs m hw
    cases n with
    | none => simp [setLoop] at h
    | some nd =>
      obtain ⟨t, d⟩ := nd
      by_cases ht : p.Typ = t
      · rw [setLoop_cons path i p tl t d ht] at h hw
        have hd2 := drop_succ_of_drop_eq_cons path i p tl hd
        have IH := ih (i + 1) _ hd2 h
        cases qs with
        | nil => exact Or.inl ⟨List.nil_prefix, by simp⟩
        | cons q qs =>
          obtain ⟨hq, v, hv, hwv⟩ := walk_cons_some q qs t _ _ hw
          by_cases he : q.Elem = p.Elem
          · have hqp : q = p := by
              cases q; cases p; simp_all
            subst hqp
            rw [mapGet_mapSet_self] at hv
            cases hv
            have hpre : ∀ qs : List Path, qs <+: tl ∧ qs ≠ tl →
                (q :: qs) <+: (q :: tl) ∧ q :: qs ≠ q :: tl := by
              intro qs h1
              refine ⟨?_, ?_⟩
              · rw [List.prefix_cons_inj]; exact h1.1
              · simpa using h1.2
            rcases IH qs m hwv with h1 | ⟨m0, h1⟩
            · exact Or.inl (hpre qs h1)
            · cases hg : mapGet d q.Elem with
              | none =>
                rw [hg] at h1
                simp only [Option.getD_none] at h1
                obtain ⟨h2, h3, _⟩ := walk_newChild_container path i q tl qs m0 hd h1
                subst h2
                exact Or.inl (hpre [] ⟨List.nil_prefix, fun e => h3 e.symm⟩)
              | some v0 =>
                rw [hg] at h1
                simp only [Option.getD_some] at h1
                refine Or.inr ⟨m0, ?_⟩
                simp [walk, hq, hg, h1]
          · rw [mapGet_mapSet_ne d p.Elem q.Elem _ he] at hv
            refine Or.inr ⟨m, ?_⟩
            simp [walk, hq, hv, hwv]
      · simp [setLoop, ht] at h

/-- The loop of `Set` keeps the child names of every container distinct. -/
theorem nodup_setLoop (path : List Path) (rest : List Path) :
    ∀ (i : Nat) (n : Option treeNode), path.drop i = rest →
      (∀ qs m, walk qs n = some (some m) → (mapKeys m.Data).Nodup) →
      ∀ qs m, walk qs (setLoop path i rest n).1 = some (some m) →
        (mapKeys m.Data).Nodup := by
  induction rest with
  | nil =>
    intro i n _ hn qs m hw
    exact hn qs m hw
  | cons p tl ih =>
    intro i n hd hn qs m hw
    cases n with
    | none => simp only [setLoop] at hw; exact hn qs m hw
    | some nd =>
      obtain ⟨t, d⟩ := nd
      by_cases ht : p.Typ = t
      · rw [setLoop_cons path i p tl t d ht] at hw
        have hd2 := drop_succ_of_drop_eq_cons path i p tl hd
        cases qs with
        | nil =>
          simp only [walk, Option.some.injEq] at hw
          rw [← hw]
          exact nodup_mapKeys_mapSet d _ _ (hn [] (.mk t d) rfl)
        | cons q qs =>
          obtain ⟨hq, v, hv, hwv⟩ := walk_cons_some q qs t _ _ hw
          by_cases he : q.Elem = p.Elem
          · rw [he, mapGet_mapSet_self] at hv
            cases hv
            refine ih (i + 1) _ hd2 ?_ qs m hwv
            intro qs2 m2 hw2
            cases hg : mapGet d p.Elem with
            | none =>
              rw [hg] at hw2
              simp only [Option.getD_none] at hw2
              obtain ⟨_, _, h3⟩ := walk_newChild_container path i p tl qs2 m2 hd hw2
              simp [h3, mapKeys]
            | some v0 =>
              rw [hg] at hw2
              simp only [Option.getD_some] at hw2
              refine hn (p :: qs2) m2 ?_
              simp [walk, ht, hg, hw2]
          · rw [mapGet_mapSet_ne d p.Elem q.Elem _ he] at hv
            refine hn (q :: qs) m ?_
            simp [walk, hq, hv, hwv]
      · simp only [setLoop, ne_eq, ht, not_false_eq_true, if_true] at hw
        exact hn qs m hw

/-! ## Lemmas on `Set` -/

theorem walk_empty_node (qs : List Path) (t : PathType) (x : Option treeNode)
    (h : walk qs (some (.mk t [])) = some x) : qs = [] ∧ x = some (.mk t []) := by
  cases qs with
  | nil => simp [walk] at h; exact ⟨rfl, h.symm⟩
  | cons q qs => simp [walk, mapGet] at h

/-- The method `Set` on a non-empty key that decodes: the loop from `rootFor`, then the
check of the final node. -/
theorem Set_eq (s : Storage) (key val : String) (file : Int) (path : List Path)
    (hp : SplitPath key = .ok path) :
    Set s key val file =
      match (setLoop path 0 path (rootFor s path)).2 with
      | .error e => ({ s with root := (setLoop path 0 path (rootFor s path)).1 }, some e)
      | .ok (some _) =>
        ({ s with root := (setLoop path 0 path (rootFor s path)).1 },
          some (conflictError key))
      | .ok none =>
        ({ s with root := (setLoop path 0 path (rootFor s path)).1,
                  data := mapSet s.data key ⟨file, val⟩ }, none) := by
  have hk := SplitPath_ok_ne_empty key path hp
  have hne := SplitPath_ne_nil key path hp
  unfold Set rootFor
  simp only [hk, if_false, hp]
  cases hr : s.root with
  | some r => rfl
  | none =>
    cases path with
    | nil => exact absurd rfl hne
    | cons p0 tl => rfl

/-- On an empty tree the loop of `Set` ends on a leaf marker. -/
theorem setLoop_rootFor_none (s : Storage) (path : List Path) (hne : path ≠ [])
    (hr : s.root = none) : (setLoop path 0 path (rootFor s path)).2 = .ok none := by
  cases path with
  | nil => exact absurd rfl hne
  | cons p0 tl =>
    simp only [rootFor, hr, List.headD_cons]
    rw [setLoop_cons (p0 :: tl) 0 p0 tl p0.Typ [] rfl]
    simp only [mapGet, Option.getD_none]
    exact setLoop_newChild (p0 :: tl) tl 0 p0 rfl

/-- A call of `Set` that returns an error leaves the storage as it was. -/
theorem Set_error_unchanged (s : Storage) (key val : String) (file : Int)
    (h : (Set s key val file).2 ≠ none) : (Set s key val file).1 = s := by
  by_cases hk : key = ""
  · simp [Set, hk]
  · cases hp : SplitPath key with
    | error e => simp [Set, hk, hp]
    | ok path =>
      have hne := SplitPath_ne_nil key path hp
      rw [Set_eq s key val file path hp] at h ⊢
      have hu := setLoop_unchanged path path 0 (rootFor s path) rfl
      cases hr : s.root with
      | none =>
        have h2 := setLoop_rootFor_none s path hne hr
        rw [h2] at h
        exact absurd rfl h
      | some r =>
        have hrf : rootFor s path = s.root := by simp [rootFor, hr]
        generalize hres : setLoop path 0 path (rootFor s path) = res at h hu
        obtain ⟨n1, e1⟩ := res
        cases e1 with
        | error e =>
          have := hu (by simp)
          simp only at this ⊢
          rw [this, hrf]
        | ok m =>
          cases m with
          | none => exact absurd rfl h
          | some m0 =>
            have := hu (by simp)
            simp only at this ⊢
            rw [this, hrf]

/-- A call of `Set` that returns no error: the key is not empty and decodes, the loop
ended on a leaf marker, and the value is recorded under the key. -/
theorem Set_ok (s : Storage) (key val : String) (file : Int)
    (h : (Set s key val file).2 = none) :
    ∃ path, SplitPath key = .ok path ∧ path ≠ [] ∧ key ≠ "" ∧
      (setLoop path 0 path (rootFor s path)).2 = .ok none ∧
      (Set s key val file).1 =
        { s with root := (setLoop path 0 path (rootFor s path)).1,
                 data := mapSet s.data key ⟨file, val⟩ } := by
  by_cases hk : key = ""
  · simp [Set, hk] at h
  · cases hp : SplitPath key with
    | error e => simp [Set, hk, hp] at h
    | ok path =>
      refine ⟨path, rfl, SplitPath_ne_nil key path hp, hk, ?_⟩
      rw [Set_eq s key val file path hp] at h ⊢
      generalize hres : setLoop path 0 path (rootFor s path) = res at h
      obtain ⟨n1, e1⟩ := res
      cases e1 with
      | error e => simp at h
      | ok m =>
        cases m with
        | none => exact ⟨rfl, rfl⟩
        | some m0 => simp at h

/-! ## The invariant of reachable storages -/

theorem Inv_new : Inv NewStorage := by
  refine ⟨?_, ?_, ?_, ?_⟩
  · intro k hk; simp [NewStorage, mapKeys] at hk
  · intro path hne hw
    exact absurd (walk_none_eq path _ hw).1 hne
  · intro path m hw
    have := (walk_none_eq path _ hw).2
    cases this
  · intro path m hw
    have := (walk_none_eq path _ hw).2
    cases this

theorem Inv_set (s : Storage) (key val : String) (file : Int) (hs : Inv s) :
    Inv (Set s key val file).1 := by
  by_cases herr : (Set s key val file).2 = none
  · obtain ⟨path, hp, hne, hk, hok, hst⟩ := Set_ok s key val file herr
    rw [hst]
    have hleaf := walk_setLoop_leaf path path 0 (rootFor s path) rfl hok
    have hcont := walk_setLoop_container path path 0 (rootFor s path) rfl hok
    -- the walks of the tree before the call, seen from `rootFor`
    have hold : ∀ qs, qs ≠ [] → walk qs s.root = some none →
        walk qs (rootFor s path) = some none := by
      intro qs hq hw
      cases hr : s.root with
      | none =>
        rw [hr] at hw
        exact absurd (walk_none_eq qs _ hw).1 hq
      | some r => rw [hr] at hw; simpa [rootFor, hr] using hw
    refine ⟨?_, ?_, ?_, ?_⟩
    · intro k2 hk2
      rcases (mem_mapKeys_mapSet s.data key k2 _).1 hk2 with h1 | h1
      · subst h1
        exact ⟨path, hp, (hleaf path).2 (Or.inr rfl)⟩
      · obtain ⟨p2, hp2, hw2⟩ := hs.leafOfKey k2 h1
        exact ⟨p2, hp2, (hleaf p2).2
          (Or.inl (hold p2 (SplitPath_ne_nil k2 p2 hp2) hw2))⟩
    · intro qs hq hw
      rcases (hleaf qs).1 hw with h1 | h1
      · cases hr : s.root with
        | none =>
          simp only [rootFor, hr] at h1
          have := (walk_empty_node qs _ _ h1).2
          cases this
        | some r =>
          simp only [rootFor, hr] at h1
          rw [← hr] at h1
          obtain ⟨k2, hk2, hp2⟩ := hs.keyOfLeaf qs hq h1
          exact ⟨k2, (mem_mapKeys_mapSet s.data key k2 _).2 (Or.inr hk2), hp2⟩
      · subst h1
        exact ⟨key, (mem_mapKeys_mapSet s.data key key _).2 (Or.inl rfl), hp⟩
    · intro qs m hw
      have hprefix : qs <+: path → ∃ more,
          walk (qs ++ more) (setLoop path 0 path (rootFor s path)).1 = some none := by
        rintro ⟨more, hm⟩
        exact ⟨more, by rw [hm]; exact (hleaf path).2 (Or.inr rfl)⟩
      rcases hcont qs m hw with h1 | ⟨m0, h1⟩
      · exact hprefix h1.1
      · cases hr : s.root with
        | none =>
          simp only [rootFor, hr] at h1
          have := (walk_empty_node qs _ _ h1).1
          subst this
          exact hprefix List.nil_prefix
        | some r =>
          simp only [rootFor, hr] at h1
          rw [← hr] at h1
          obtain ⟨more, hm⟩ := hs.leafBelow qs m0 h1
          have hmne : qs ++ more ≠ [] := by
            intro e
            have e1 : qs = [] := (List.append_eq_nil.1 e).1
            have e2 : more = [] := (List.append_eq_nil.1 e).2
            subst e1; subst e2
            simp [walk, hr] at hm
          exact ⟨more, (hleaf _).2 (Or.inl (hold _ hmne hm))⟩
    · intro qs m hw
      refine nodup_setLoop path path 0 (rootFor s path) rfl ?_ qs m hw
      intro qs2 m2 hw2
      cases hr : s.root with
      | none =>
        simp only [rootFor, hr] at hw2
        have := (walk_empty_node qs2 _ _ hw2).2
        cases this
        simp [treeNode.Data, mapKeys]
      | some r =>
        simp only [rootFor, hr] at hw2
        rw [← hr] at hw2
        exact hs.nodupKeys qs2 m2 hw2
  · rw [Set_error_unchanged s key val file herr]
    exact hs

theorem Inv_addFile (s : Storage) (file : String) (hs : Inv s) :
    Inv (AddFile s file).1 := by
  have h1 : (AddFile s file).1.root = s.root := by
    unfold AddFile; cases mapGet s.file file <;> rfl
  have h2 : (AddFile s file).1.data = s.data := by
    unfold AddFile; cases mapGet s.file file <;> rfl
  exact ⟨by rw [h1, h2]; exact hs.leafOfKey, by rw [h1, h2]; exact hs.keyOfLeaf,
    by rw [h1]; exact hs.leafBelow, by rw [h1]; exact hs.nodupKeys⟩

/-- Every reachable storage satisfies the invariant. -/
theorem Inv_of_reachable (s : Storage) (h : Reachable s) : Inv s := by
  induction h with
  | new => exact Inv_new
  | set s key val file _ ih => exact Inv_set s key val file ih
  | addFile s file _ ih => exact Inv_addFile s file ih

/-! ## Lemmas on `Has` and `SubKeys` -/

theorem root_isSome_of_key (s : Storage) (hs : Inv s) (k : String)
    (hk : k ∈ mapKeys s.data) : ∃ r, s.root = some r := by
  obtain ⟨path, hp, hw⟩ := hs.leafOfKey k hk
  cases hr : s.root with
  | none =>
    rw [hr] at hw
    exact absurd (walk_none_eq path _ hw).1 (SplitPath_ne_nil k path hp)
  | some r => exact ⟨r, rfl⟩

theorem rootFor_of_key (s : Storage) (hs : Inv s) (k : String)
    (hk : k ∈ mapKeys s.data) (path : List Path) : rootFor s path = s.root := by
  obtain ⟨r, hr⟩ := root_isSome_of_key s hs k hk
  simp [rootFor, hr]

/-- The method `Has` unfolded: the two guards, then the fast path or the walk. -/
theorem Has_iff_walk (s : Storage) (k : String) :
    Has s k = true ↔ k ≠ "" ∧ s.root ≠ none ∧
      (k ∈ mapKeys s.data ∨ ∃ path, SplitPath k = .ok path ∧ (walk path s.root).isSome) := by
  unfold Has
  by_cases hk : k = ""
  · simp [hk]
  · cases hr : s.root with
    | none => simp [hk]
    | some r =>
      by_cases hd : (mapGet s.data k).isSome = true
      · have := (mapGet_isSome_iff s.data k).1 hd
        simp [hk, hd, this]
      · have hd2 : k ∉ mapKeys s.data := fun h => hd ((mapGet_isSome_iff s.data k).2 h)
        cases hp : SplitPath k with
        | error e => simp [hk, hd, hd2]
        | ok path => simp [hk, hd, hd2, hasLoop_eq_walk]

theorem subKeysLoop_of_walk (path : List Path) (rest : List Path) :
    ∀ (i : Nat) (n m : Option treeNode), walk rest n = some m →
      subKeysLoop path i rest n = .done m := by
  induction rest with
  | nil =>
    intro i n m h
    simp [walk] at h
    simp [subKeysLoop, h]
  | cons p tl ih =>
    intro i n m h
    cases n with
    | none => simp [walk] at h
    | some nd =>
      obtain ⟨t, d⟩ := nd
      obtain ⟨ht, v, hv, hw⟩ := walk_cons_some p tl t d m h
      simp only [subKeysLoop, ht, ne_eq, not_true_eq_false, if_false, hv]
      exact ih (i + 1) v m hw

theorem subKeysLoop_absent (path : List Path) (common : List Path) (x : Path)
    (tl : List Path) (t : PathType) (d : List (String × Option treeNode)) :
    ∀ (i : Nat) (n : Option treeNode), walk common n = some (some (.mk t d)) →
      x.Typ = t → mapGet d x.Elem = none →
      subKeysLoop path i (common ++ x :: tl) n = .absent := by
  induction common with
  | nil =>
    intro i n h hx hg
    simp [walk] at h
    subst h
    simp [subKeysLoop, hx, hg]
  | cons p cs ih =>
    intro i n h hx hg
    cases n with
    | none => simp [walk] at h
    | some nd =>
      obtain ⟨t1, d1⟩ := nd
      obtain ⟨ht, v, hv, hw⟩ := walk_cons_some p cs t1 d1 _ h
      simp only [List.cons_append, subKeysLoop, ht, ne_eq, not_true_eq_false, if_false, hv]
      exact ih (i + 1) v hw hx hg

theorem walk_prefix_isSome (ps more : List Path) (n m : Option treeNode)
    (h : walk (ps ++ more) n = some m) : ∃ m1, walk ps n = some m1 ∧ walk more m1 = some m := by
  rw [walk_append] at h
  cases hw : walk ps n with
  | none => simp [hw] at h
  | some m1 => simp [hw] at h; exact ⟨m1, rfl, h⟩

/-! ## The claims -/

/-- C1 (shape consistency).  In a storage reached from `NewStorage`, let `q` be a key of
the flat map with decoded path `Q` and `p` a key with decoded path `P` that agrees with
`Q` on the first `i` segments, both paths longer than `i`, and whose segment `i` has
another path type than that of `Q`.  Then `Set(p, val, file)` returns the error
"property conflict at path " followed by `JoinPath` of the segments `0..i` of `P`. -/
theorem set_shape_conflict (s : Storage) (hs : Reachable s) (q p val : String)
    (file : Int) (Q P : List Path) (i : Nat)
    (hq : q ∈ mapKeys s.data) (hQ : SplitPath q = .ok Q) (hP : SplitPath p = .ok P)
    (hiQ : i < Q.length) (hiP : i < P.length) (hpre : P.take i = Q.take i)
    (hty : P[i].Typ ≠ Q[i].Typ) :
    (Set s p val file).2 = some (conflictError (JoinPath (P.take (i + 1)))) := by
  have hinv := Inv_of_reachable s hs
  obtain ⟨Q2, hQ2, hw⟩ := hinv.leafOfKey q hq
  rw [hQ] at hQ2
  cases hQ2
  have hQd : Q = Q.take i ++ Q[i] :: Q.drop (i + 1) := by
    rw [← List.drop_eq_getElem_cons hiQ, List.take_append_drop]
  have hPd : P = Q.take i ++ P[i] :: P.drop (i + 1) := by
    rw [← hpre, ← List.drop_eq_getElem_cons hiP, List.take_append_drop]
  rw [hQd] at hw
  obtain ⟨m1, hw1, hw2⟩ := walk_prefix_isSome _ _ _ _ hw
  have hb : blocks m1 P[i] := by
    cases m1 with
    | none => exact Or.inl rfl
    | some nd =>
      obtain ⟨t, d⟩ := nd
      obtain ⟨ht, _⟩ := walk_cons_some _ _ t d _ hw2
      exact Or.inr ⟨t, d, rfl, by rw [← ht]; exact hty⟩
  have hloop := setLoop_conflict P (Q.take i) P[i] (P.drop (i + 1)) 0 s.root m1 hw1 hb
  rw [← hPd] at hloop
  have hlen : (Q.take i).length = i := by
    rw [List.length_take]; omega
  rw [hlen, Nat.zero_add] at hloop
  rw [Set_eq s p val file P hP, rootFor_of_key s hinv q hq, hloop]

/-- Witness of C1: after `Set("a.b")`, the call `Set("a[0]")` returns the conflict error
for `a[0]`. -/
theorem set_shape_conflict_witness :
    (Set (Set NewStorage "a.b" "v1" 0).1 "a[0]" "v2" 0).2
      = some (conflictError (JoinPath
          (List.take (1 + 1) [⟨PathType.Key, "a"⟩, ⟨PathType.Index, "0"⟩]))) :=
  set_shape_conflict (Set NewStorage "a.b" "v1" 0).1
    (Reachable.set _ _ _ _ Reachable.new) "a.b" "a[0]" "v2" 0
    [⟨.Key, "a"⟩, ⟨.Key, "b"⟩] [⟨.Key, "a"⟩, ⟨.Index, "0"⟩] 1
    (by decide) (by decide) (by decide) (by decide) (by decide) (by decide) (by decide)

theorem exists_cons_of_strict_prefix (Q P : List Path) (h : Q <+: P) (hne : Q ≠ P) :
    ∃ x tl, P = Q ++ x :: tl := by
  obtain ⟨more, hm⟩ := h
  cases more with
  | nil => simp at hm; exact absurd hm hne
  | cons x tl => exact ⟨x, tl, hm.symm⟩

/-- C2 (leaf/container conflict).  In a storage reached from `NewStorage`, let `q` be a
key of the flat map with decoded path `Q` and `p` a key with decoded path `P`.  If `P`
strictly extends `Q`, `Set(p, val, file)` returns the conflict error naming the
segments of `P` up to one past the length of `Q`; if `P` is a strict prefix of `Q`, it
returns the conflict error naming `p`. -/
theorem set_leaf_container_conflict (s : Storage) (hs : Reachable s) (q p val : String)
    (file : Int) (Q P : List Path)
    (hq : q ∈ mapKeys s.data) (hQ : SplitPath q = .ok Q) (hP : SplitPath p = .ok P) :
    (Q <+: P → Q ≠ P →
      (Set s p val file).2 = some (conflictError (JoinPath (P.take (Q.length + 1))))) ∧
    (P <+: Q → P ≠ Q → (Set s p val file).2 = some (conflictError p)) := by
  have hinv := Inv_of_reachable s hs
  obtain ⟨Q2, hQ2, hw⟩ := hinv.leafOfKey q hq
  rw [hQ] at hQ2
  cases hQ2
  constructor
  · intro hpre hne
    obtain ⟨x, tl, hx⟩ := exists_cons_of_strict_prefix Q P hpre hne
    have hloop := setLoop_conflict P Q x tl 0 s.root none hw (Or.inl rfl)
    rw [← hx, Nat.zero_add] at hloop
    rw [Set_eq s p val file P hP, rootFor_of_key s hinv q hq, hloop]
  · intro hpre hne
    obtain ⟨y, tl, hy⟩ := exists_cons_of_strict_prefix P Q hpre hne
    rw [hy] at hw
    obtain ⟨m1, hw1, hw2⟩ := walk_prefix_isSome _ _ _ _ hw
    cases m1 with
    | none => simp [walk] at hw2
    | some nd =>
      have hloop := setLoop_of_walk P P 0 s.root (some nd) hw1
      rw [Set_eq s p val file P hP, rootFor_of_key s hinv q hq, hloop]

/-- Witness of C2: after `Set("a.b")` the call `Set("a.b.c")` returns a conflict error,
and after `Set("a.b.c")` the call `Set("a.b")` returns a conflict error. -/
theorem set_leaf_container_conflict_witness :
    (Set (Set NewStorage "a.b" "v" 0).1 "a.b.c" "v2" 0).2
      = some (conflictError (JoinPath (List.take
          (2 + 1)
          [⟨PathType.Key, "a"⟩, ⟨PathType.Key, "b"⟩, ⟨PathType.Key, "c"⟩]))) ∧
    (Set (Set NewStorage "a.b.c" "v" 0).1 "a.b" "v2" 0).2 = some (conflictError "a.b") :=
  ⟨(set_leaf_container_conflict (Set NewStorage "a.b" "v" 0).1
      (Reachable.set _ _ _ _ Reachable.new) "a.b" "a.b.c" "v2" 0
      [⟨.Key, "a"⟩, ⟨.Key, "b"⟩] [⟨.Key, "a"⟩, ⟨.Key, "b"⟩, ⟨.Key, "c"⟩]
      (by decide) (by decide) (by decide)).1 (by decide) (by decide),
   (set_leaf_container_conflict (Set NewStorage "a.b.c" "v" 0).1
      (Reachable.set _ _ _ _ Reachable.new) "a.b.c" "a.b" "v2" 0
      [⟨.Key, "a"⟩, ⟨.Key, "b"⟩, ⟨.Key, "c"⟩] [⟨.Key, "a"⟩, ⟨.Key, "b"⟩]
      (by decide) (by decide) (by decide)).2 (by decide) (by decide)⟩

/-- C3 (idempotent overwrite).  In a storage reached from `NewStorage`, `Set(k, v2, f2)`
on a key `k` of the flat map returns no error, leaves the tree and the file table as
they are, makes the entry of `k` in the flat map `{f2, v2}`, leaves every other entry
and the set of keys of the flat map as they are, and `Has(k)` is true afterwards. -/
theorem set_overwrite (s : Storage) (hs : Reachable s) (k v2 : String) (f2 : Int)
    (hk : k ∈ mapKeys s.data) :
    (Set s k v2 f2).2 = none ∧
    (Set s k v2 f2).1.root = s.root ∧
    (Set s k v2 f2).1.file = s.file ∧
    mapGet (Set s k v2 f2).1.data k = some ⟨f2, v2⟩ ∧
    (∀ k2, k2 ≠ k → mapGet (Set s k v2 f2).1.data k2 = mapGet s.data k2) ∧
    mapKeys (Set s k v2 f2).1.data = mapKeys s.data ∧
    Has (Set s k v2 f2).1 k = true := by
  have hinv := Inv_of_reachable s hs
  obtain ⟨P, hP, hw⟩ := hinv.leafOfKey k hk
  obtain ⟨r, hr⟩ := root_isSome_of_key s hinv k hk
  have hloop := setLoop_of_walk P P 0 s.root none hw
  have hset : Set s k v2 f2 = ({ s with data := mapSet s.data k ⟨f2, v2⟩ }, none) := by
    rw [Set_eq s k v2 f2 P hP, rootFor_of_key s hinv k hk, hloop]
  obtain ⟨v0, hv0⟩ : ∃ v0, mapGet s.data k = some v0 := by
    have := (mapGet_isSome_iff s.data k).2 hk
    cases hg : mapGet s.data k with
    | none => simp [hg] at this
    | some v0 => exact ⟨v0, rfl⟩
  rw [hset]
  refine ⟨rfl, rfl, rfl, mapGet_mapSet_self _ _ _, ?_, ?_, ?_⟩
  · intro k2 h2
    exact mapGet_mapSet_ne _ _ _ _ h2
  · exact mapKeys_mapSet_of_some _ _ _ v0 hv0
  · rw [Has_iff_walk]
    refine ⟨SplitPath_ok_ne_empty k P hP, by simp [hr], Or.inl ?_⟩
    exact (mem_mapKeys_mapSet _ _ _ _).2 (Or.inl rfl)

/-- Witness of C3: `Set("a.b", "v1", 1)`, then `Set("x", "w", 0)`, then
`Set("a.b", "v2", 2)`. -/
theorem set_overwrite_witness :
    (Set (Set (Set NewStorage "a.b" "v1" 1).1 "x" "w" 0).1 "a.b" "v2" 2).2 = none ∧
    mapGet (Set (Set (Set NewStorage "a.b" "v1" 1).1 "x" "w" 0).1 "a.b" "v2" 2).1.data
      "a.b" = some ⟨2, "v2"⟩ ∧
    Has (Set (Set (Set NewStorage "a.b" "v1" 1).1 "x" "w" 0).1 "a.b" "v2" 2).1 "a.b"
      = true :=
  have h := set_overwrite (Set (Set NewStorage "a.b" "v1" 1).1 "x" "w" 0).1
    (Reachable.set _ _ _ _ (Reachable.set _ _ _ _ Reachable.new)) "a.b" "v2" 2
    (by decide)
  ⟨h.1, h.2.2.2.1, h.2.2.2.2.2.2⟩

/-- C4 (`Has` is "value path or valid path in the hierarchy").  In a storage reached from
`NewStorage`, `Has(k)` is true exactly when `k` is not empty, `SplitPath(k)` succeeds,
and the decoded path of `k` is a prefix (possibly the whole) of the decoded path of a key
of the flat map; and `Has(k)` is false whenever the walk of the decoded path of `k` does
not resolve (a leaf marker before the last segment, an absent child, another type). -/
theorem has_iff_prefix_of_stored (s : Storage) (hs : Reachable s) (k : String) :
    (Has s k = true ↔
      k ≠ "" ∧ ∃ P, SplitPath k = .ok P ∧
        ∃ q Q, q ∈ mapKeys s.data ∧ SplitPath q = .ok Q ∧ P <+: Q) ∧
    (∀ P, SplitPath k = .ok P → walk P s.root = none → Has s k = false) := by
  have hinv := Inv_of_reachable s hs
  have key : Has s k = true ↔
      k ≠ "" ∧ ∃ P, SplitPath k = .ok P ∧
        ∃ q Q, q ∈ mapKeys s.data ∧ SplitPath q = .ok Q ∧ P <+: Q := by
    rw [Has_iff_walk]
    constructor
    · rintro ⟨hk, hr, h | ⟨P, hP, hw⟩⟩
      · obtain ⟨P, hP, _⟩ := hinv.leafOfKey k h
        exact ⟨hk, P, hP, k, P, h, hP, List.prefix_refl P⟩
      · refine ⟨hk, P, hP, ?_⟩
        have hne := SplitPath_ne_nil k P hP
        cases hwm : walk P s.root with
        | none => simp [hwm] at hw
        | some m =>
          cases m with
          | none =>
            obtain ⟨q, hq, hQ⟩ := hinv.keyOfLeaf P hne hwm
            exact ⟨q, P, hq, hQ, List.prefix_refl P⟩
          | some m0 =>
            obtain ⟨more, hm⟩ := hinv.leafBelow P m0 hwm
            have hne2 : P ++ more ≠ [] := by simp [hne]
            obtain ⟨q, hq, hQ⟩ := hinv.keyOfLeaf (P ++ more) hne2 hm
            exact ⟨q, P ++ more, hq, hQ, List.prefix_append P more⟩
    · rintro ⟨hk, P, hP, q, Q, hq, hQ, more, hm⟩
      obtain ⟨r, hr⟩ := root_isSome_of_key s hinv q hq
      obtain ⟨Q2, hQ2, hw⟩ := hinv.leafOfKey q hq
      rw [hQ] at hQ2
      cases hQ2
      rw [← hm] at hw
      obtain ⟨m1, hw1, _⟩ := walk_prefix_isSome _ _ _ _ hw
      exact ⟨hk, by simp [hr], Or.inr ⟨P, hP, by simp [hw1]⟩⟩
  refine ⟨key, ?_⟩
  intro P hP hw
  cases hh : Has s k with
  | false => rfl
  | true =>
    obtain ⟨_, P2, hP2, q, Q, hq, hQ, more, hm⟩ := key.1 hh
    rw [hP] at hP2
    cases hP2
    obtain ⟨Q2, hQ2, hwq⟩ := hinv.leafOfKey q hq
    rw [hQ] at hQ2
    cases hQ2
    rw [← hm] at hwq
    obtain ⟨m1, hw1, _⟩ := walk_prefix_isSome _ _ _ _ hwq
    rw [hw] at hw1
    cases hw1

/-- Witness of C4: after `Set("a.b.c")`, `Has("a.b")` is decided by the prefix
characterisation. -/
theorem has_iff_prefix_of_stored_witness :
    (Has (Set NewStorage "a.b.c" "v" 0).1 "a.b" = true ↔
      "a.b" ≠ "" ∧ ∃ P, SplitPath "a.b" = .ok P ∧
        ∃ q Q, q ∈ mapKeys (Set NewStorage "a.b.c" "v" 0).1.data ∧
          SplitPath q = .ok Q ∧ P <+: Q) :=
  (has_iff_prefix_of_stored (Set NewStorage "a.b.c" "v" 0).1
    (Reachable.set _ _ _ _ Reachable.new) "a.b").1

theorem sortStrings_sorted (l : List String) :
    List.Sorted (fun a b : String => a ≤ b) (sortStrings l) := by
  have ht : IsTotal String (fun a b => a.toList ≤ b.toList) := ⟨fun a b => by
    have := le_total a b
    rwa [String.le_iff_toList_le, String.le_iff_toList_le] at this⟩
  have htr : IsTrans String (fun a b => a.toList ≤ b.toList) := ⟨fun a b c h1 h2 => by
    rw [← String.le_iff_toList_le] at h1 h2 ⊢
    exact le_trans h1 h2⟩
  have h := List.sorted_insertionSort (fun a b : String => a.toList ≤ b.toList) l
  exact List.Pairwise.imp (fun h1 => String.le_iff_toList_le.2 h1) h

theorem sortStrings_perm (l : List String) : (sortStrings l).Perm l :=
  List.perm_insertionSort _ l

/-- The method `SubKeys` on a storage with a root, for a key that is empty or decodes. -/
theorem SubKeys_eq (s : Storage) (k : String) (P : List Path) (r : treeNode)
    (hP : (k = "" ∧ P = []) ∨ SplitPath k = .ok P) (hr : s.root = some r) :
    SubKeys s k =
      match subKeysLoop P 0 P (some r) with
      | .conflict e => (none, some e)
      | .absent => (none, none)
      | .done none => (none, some (.text ("property path " ++ k ++ " not found")))
      | .done (some n) => (some (sortStrings (mapKeys n.Data)), none) := by
  unfold SubKeys
  rcases hP with ⟨hk, hP⟩ | hP
  · subst hk; subst hP
    simp [hr]
  · have hk := SplitPath_ok_ne_empty k P hP
    simp [hk, hP, hr]

/-- C5 (enumeration).  In a storage reached from `NewStorage`, let `k` be a key that is
empty (decoded as the empty path, the root) or decodes to `P`, and let the walk of `P`
end at a container.  Then `SubKeys(k)` returns a list and no error; the list is strictly
ascending in the order of strings, has no duplicates, and its elements are exactly the
texts of the segment at position `len(P)` of the keys of the flat map whose decoded path
extends `P`. -/
theorem subKeys_enumerates (s : Storage) (hs : Reachable s) (k : String) (P : List Path)
    (m : treeNode) (hP : (k = "" ∧ P = []) ∨ SplitPath k = .ok P)
    (hw : walk P s.root = some (some m)) :
    ∃ l, SubKeys s k = (some l, none) ∧
      List.Sorted (fun a b : String => a < b) l ∧ l.Nodup ∧
      ∀ e, e ∈ l ↔ ∃ q Q x, q ∈ mapKeys s.data ∧ SplitPath q = .ok Q ∧ P <+: Q ∧
        Q[P.length]? = some x ∧ x.Elem = e := by
  have hinv := Inv_of_reachable s hs
  obtain ⟨r, hr⟩ : ∃ r, s.root = some r := by
    cases hr : s.root with
    | none =>
      rw [hr] at hw
      have := (walk_none_eq P _ hw).2
      cases this
    | some r => exact ⟨r, rfl⟩
  have hres : SubKeys s k = (some (sortStrings (mapKeys m.Data)), none) := by
    rw [SubKeys_eq s k P r hP hr, ← hr, subKeysLoop_of_walk P P 0 s.root _ hw]
  have hnd := hinv.nodupKeys P m hw
  have hperm := sortStrings_perm (mapKeys m.Data)
  have hnd2 : (sortStrings (mapKeys m.Data)).Nodup := hperm.nodup_iff.2 hnd
  refine ⟨_, hres, (sortStrings_sorted _).lt_of_le hnd2, hnd2, ?_⟩
  intro e
  rw [hperm.mem_iff]
  obtain ⟨t, d⟩ := m
  simp only [treeNode.Data]
  constructor
  · intro he
    obtain ⟨v, hv⟩ : ∃ v, mapGet d e = some v := by
      have := (mapGet_isSome_iff d e).2 he
      cases hg : mapGet d e with
      | none => simp [hg] at this
      | some v => exact ⟨v, rfl⟩
    have hwx : walk (P ++ [⟨t, e⟩]) s.root = some v := by
      rw [walk_append, hw]
      simp [walk, hv]
    have hget : ∀ more : List Path,
        (P ++ [⟨t, e⟩] ++ more)[P.length]? = some (⟨t, e⟩ : Path) := by
      intro more
      rw [List.append_assoc, List.getElem?_append_right (le_refl _)]
      simp
    cases v with
    | none =>
      obtain ⟨q, hq, hQ⟩ := hinv.keyOfLeaf _ (by simp) hwx
      refine ⟨q, _, ⟨t, e⟩, hq, hQ, List.prefix_append P _, ?_, rfl⟩
      have h0 := hget []
      rwa [List.append_nil] at h0
    | some m2 =>
      obtain ⟨more, hm⟩ := hinv.leafBelow _ m2 hwx
      obtain ⟨q, hq, hQ⟩ := hinv.keyOfLeaf _ (by simp) hm
      refine ⟨q, _, ⟨t, e⟩, hq, hQ, ?_, hget more, rfl⟩
      rw [List.append_assoc]
      exact List.prefix_append P _
  · rintro ⟨q, Q, x, hq, hQ, ⟨more, hm⟩, hx, hxe⟩
    obtain ⟨Q2, hQ2, hwq⟩ := hinv.leafOfKey q hq
    rw [hQ] at hQ2
    cases hQ2
    rw [← hm] at hwq hx
    cases more with
    | nil => simp at hx
    | cons y tl =>
      rw [List.getElem?_append_right (le_refl _)] at hx
      simp at hx
      subst hx
      obtain ⟨m1, hw1, hw2⟩ := walk_prefix_isSome _ _ _ _ hwq
      rw [hw] at hw1
      cases hw1
      obtain ⟨_, v, hv, _⟩ := walk_cons_some _ _ t d _ hw2
      rw [← hxe]
      exact (mapGet_isSome_iff d y.Elem).1 (by simp [hv])

/-- Witness of C5: after `Set("a.b")`, `Set("a.c")`, `Set("a.a")`, the result of
`SubKeys("a")` is a strictly ascending list of the second segments of the stored keys;
it is `["a", "b", "c"]`. -/
theorem subKeys_enumerates_witness :
    (∃ l, SubKeys (Set (Set (Set NewStorage "a.b" "v" 0).1 "a.c" "v" 0).1 "a.a" "v" 0).1
        "a" = (some l, none) ∧
      List.Sorted (fun a b : String => a < b) l ∧ l.Nodup ∧
      ∀ e, e ∈ l ↔ ∃ q Q x,
        q ∈ mapKeys (Set (Set (Set NewStorage "a.b" "v" 0).1 "a.c" "v" 0).1
          "a.a" "v" 0).1.data ∧
        SplitPath q = .ok Q ∧ [(⟨.Key, "a"⟩ : Path)] <+: Q ∧
        Q[[(⟨.Key, "a"⟩ : Path)].length]? = some x ∧ x.Elem = e) ∧
    SubKeys (Set (Set (Set NewStorage "a.b" "v" 0).1 "a.c" "v" 0).1 "a.a" "v" 0).1 "a"
      = (some ["a", "b", "c"], none) :=
  ⟨subKeys_enumerates (Set (Set (Set NewStorage "a.b" "v" 0).1 "a.c" "v" 0).1 "a.a" "v" 0).1
      (Reachable.set _ _ _ _ (Reachable.set _ _ _ _ (Reachable.set _ _ _ _ Reachable.new)))
      "a" [⟨.Key, "a"⟩]
      (.mk .Key [("b", none), ("c", none), ("a", none)]) (Or.inr (by decide)) (by rfl),
    by decide⟩

/-- C6 (`SubKeys` on a value path).  In a storage reached from `NewStorage`, `SubKeys(k)`
on a key `k` of the flat map returns the nil slice and the error
"property path <k> not found". -/
theorem subKeys_value_path (s : Storage) (hs : Reachable s) (k : String)
    (hk : k ∈ mapKeys s.data) :
    SubKeys s k = (none, some (.text ("property path " ++ k ++ " not found"))) := by
  have hinv := Inv_of_reachable s hs
  obtain ⟨P, hP, hw⟩ := hinv.leafOfKey k hk
  obtain ⟨r, hr⟩ := root_isSome_of_key s hinv k hk
  rw [SubKeys_eq s k P r (Or.inr hP) hr, ← hr, subKeysLoop_of_walk P P 0 s.root _ hw]

/-- Witness of C6: after `Set("a.b")`, `SubKeys("a.b")` is the not-found error. -/
theorem subKeys_value_path_witness :
    SubKeys (Set NewStorage "a.b" "v" 0).1 "a.b"
      = (none, some (.text ("property path " ++ "a.b" ++ " not found"))) :=
  subKeys_value_path (Set NewStorage "a.b" "v" 0).1
    (Reachable.set _ _ _ _ Reachable.new) "a.b" (by decide)

/-- C7 (`SubKeys` on a valid but missing path).  (a) On a storage without a root,
`SubKeys(k)` returns the nil slice and no error for the empty key and for every key that
decodes.  (b) On any storage, when the decoded path of `k` resolves up to a container of
the type of the next segment that has no child for the text of that segment,
`SubKeys(k)` returns the nil slice and no error. -/
theorem subKeys_missing (s : Storage) (k : String) :
    (s.root = none → (k = "" ∨ ∃ P, SplitPath k = .ok P) → SubKeys s k = (none, none)) ∧
    (∀ (P common : List Path) (x : Path) (tl : List Path) (t : PathType)
        (d : List (String × Option treeNode)),
      SplitPath k = .ok P → P = common ++ x :: tl →
      walk common s.root = some (some (.mk t d)) → x.Typ = t → mapGet d x.Elem = none →
      SubKeys s k = (none, none)) := by
  constructor
  · intro hr hk
    unfold SubKeys
    rcases hk with hk | ⟨P, hP⟩
    · simp [hk, hr]
    · have hk := SplitPath_ok_ne_empty k P hP
      simp [hk, hP, hr]
  · intro P common x tl t d hP hdec hw hx hg
    obtain ⟨r, hr⟩ : ∃ r, s.root = some r := by
      cases hr : s.root with
      | none =>
        rw [hr] at hw
        have := (walk_none_eq common _ hw).2
        cases this
      | some r => exact ⟨r, rfl⟩
    rw [SubKeys_eq s k P r (Or.inr hP) hr, ← hr]
    have := subKeysLoop_absent P common x tl t d 0 s.root hw hx hg
    rw [← hdec] at this
    rw [this]

/-- Witness of C7: `SubKeys("x")` on a new storage, and `SubKeys("a.x.y")` after
`Set("a.b")`. -/
theorem subKeys_missing_witness :
    SubKeys NewStorage "x" = (none, none) ∧
    SubKeys (Set NewStorage "a.b" "v" 0).1 "a.x.y" = (none, none) :=
  ⟨(subKeys_missing NewStorage "x").1 rfl (Or.inr ⟨[⟨.Key, "x"⟩], by decide⟩),
   (subKeys_missing (Set NewStorage "a.b" "v" 0).1 "a.x.y").2
      [⟨.Key, "a"⟩, ⟨.Key, "x"⟩, ⟨.Key, "y"⟩] [⟨.Key, "a"⟩] ⟨.Key, "x"⟩ [⟨.Key, "y"⟩]
      .Key [("b", none)] (by decide) (by decide) (by rfl) (by decide) (by rfl)⟩

/-- C8 (`Has` swallows parse errors).  In a storage reached from `NewStorage`, `Has(k)`
is false for the empty key and for every key on which `SplitPath` fails; `Has` is a
function into the booleans, with no error result. -/
theorem has_false_of_parse_error (s : Storage) (hs : Reachable s) (k : String)
    (hk : k = "" ∨ ∃ e, SplitPath k = .error e) : Has s k = false := by
  have hinv := Inv_of_reachable s hs
  cases hh : Has s k with
  | false => rfl
  | true =>
    obtain ⟨hne, _, h | ⟨P, hP, _⟩⟩ := (Has_iff_walk s k).1 hh
    · obtain ⟨P, hP, _⟩ := hinv.leafOfKey k h
      rcases hk with hk | ⟨e, he⟩
      · exact absurd hk hne
      · rw [hP] at he; cases he
    · rcases hk with hk | ⟨e, he⟩
      · exact absurd hk hne
      · rw [hP] at he; cases he

/-- Witness of C8: after `Set("a.b")`, `Has("a..b")` is false. -/
theorem has_false_of_parse_error_witness :
    Has (Set NewStorage "a.b" "v" 0).1 "a..b" = false :=
  has_false_of_parse_error (Set NewStorage "a.b" "v" 0).1
    (Reachable.set _ _ _ _ Reachable.new) "a..b" (Or.inr ⟨.parse "a..b", by decide⟩)

/-- C9 as amended (fast path of `Has`).  For every storage state, whatever its tree and
its flat map hold (for instance a flat map filled through `RawData`), and every key:
when the key is not empty, the root is present and the key is present verbatim in the
flat map, `Has(key)` is true, and the key need not decode; when the key is empty or the
root is absent, `Has(key)` is false, whatever the flat map holds. -/
theorem has_fast_path (s : Storage) (key : String) :
    (key ≠ "" → s.root ≠ none → key ∈ mapKeys (RawData s) → Has s key = true) ∧
    (key = "" ∨ s.root = none → Has s key = false) := by
  constructor
  · intro hk hr hd
    rw [Has_iff_walk]
    exact ⟨hk, hr, Or.inl hd⟩
  · intro h
    cases hh : Has s key with
    | false => rfl
    | true =>
      obtain ⟨hk, hr, _⟩ := (Has_iff_walk s key).1 hh
      rcases h with h | h
      · exact absurd h hk
      · exact absurd h hr

/-- Witness of C9 as amended: in a state with an empty root node whose flat map holds the
key `a..b`, which does not decode, `Has("a..b")` is true; in a state without a root
whose flat map holds the key `a`, `Has("a")` is false; in a state with a root whose flat
map holds the empty key, `Has("")` is false. -/
theorem has_fast_path_witness :
    Has ⟨some (.mk .Key []), [("a..b", ⟨0, "v"⟩)], []⟩ "a..b" = true ∧
    Has ⟨none, [("a", ⟨0, "v"⟩)], []⟩ "a" = false ∧
    Has ⟨some (.mk .Key []), [("", ⟨0, "v"⟩)], []⟩ "" = false :=
  ⟨(has_fast_path ⟨some (.mk .Key []), [("a..b", ⟨0, "v"⟩)], []⟩ "a..b").1
      (by decide) (by simp) (by decide),
   (has_fast_path ⟨none, [("a", ⟨0, "v"⟩)], []⟩ "a").2 (Or.inr rfl),
   (has_fast_path ⟨some (.mk .Key []), [("", ⟨0, "v"⟩)], []⟩ "").2 (Or.inl rfl)⟩

/-- Counterexample to C9 as stated: in a state without a root whose flat map holds the key
`a`, `Has("a")` is false; in a state with a root whose flat map holds the empty key,
`Has("")` is false.  The guard `key == "" || s.root == nil` comes before the fast path. -/
theorem has_fast_path_counterexample :
    ("a" ∈ mapKeys (RawData ⟨none, [("a", ⟨0, "v"⟩)], []⟩) ∧
      Has ⟨none, [("a", ⟨0, "v"⟩)], []⟩ "a" = false) ∧
    ("" ∈ mapKeys (RawData ⟨some (.mk .Key []), [("", ⟨0, "v"⟩)], []⟩) ∧
      Has ⟨some (.mk .Key []), [("", ⟨0, "v"⟩)], []⟩ "" = false) := by
  refine ⟨⟨by decide, by decide⟩, ⟨by decide, by decide⟩⟩

/-! ## The file table -/

theorem addFiles_append_singleton (s : Storage) (l : List String) (y : String) :
    addFiles s (l ++ [y]) = (AddFile (addFiles s l) y).1 := by
  simp [addFiles, List.foldl_append]

theorem dedup_length_append_singleton (l : List String) (y : String) :
    (l ++ [y]).dedup.length = if y ∈ l then l.dedup.length else l.dedup.length + 1 := by
  rw [← List.card_toFinset, ← List.card_toFinset]
  have h : (l ++ [y]).toFinset = insert y l.toFinset := by
    ext z; simp [or_comm]
  rw [h]
  split_ifs with hy
  · exact Finset.card_insert_of_mem (List.mem_toFinset.2 hy)
  · exact Finset.card_insert_of_not_mem (fun hm => hy (List.mem_toFinset.1 hm))

theorem dedup_length_lt_of_first_occurrence (a b : List String) (x : String)
    (hx : x ∉ a) : a.dedup.length + 1 ≤ (a ++ x :: b).dedup.length := by
  rw [← List.card_toFinset, ← List.card_toFinset,
    ← Finset.card_insert_of_not_mem (fun hm => hx (List.mem_toFinset.1 hm))]
  apply Finset.card_le_card
  intro z hz
  simp at hz ⊢
  rcases hz with hz | hz
  · tauto
  · tauto

theorem int8_of_lt (n : Nat) (h : n < 128) : int8 (n : Int) = (n : Int) := by
  unfold int8
  omega

theorem length_mapSet_of_none {β : Type} (m : List (String × β)) (k : String) (v : β)
    (h : mapGet m k = none) : (mapSet m k v).length = m.length + 1 := by
  have h1 := congrArg List.length (mapKeys_mapSet_of_none m k v h)
  simpa [mapKeys] using h1

/-- The file table after a sequence of `AddFile` calls on a new storage: one entry per
distinct name, and under each name the converted count of the distinct names before its
first occurrence. -/
theorem file_table_of_addFiles (l : List String) :
    (addFiles NewStorage l).file.length = l.dedup.length ∧
    (∀ x, x ∈ mapKeys (addFiles NewStorage l).file ↔ x ∈ l) ∧
    (∀ a b x, l = a ++ x :: b → x ∉ a →
      mapGet (addFiles NewStorage l).file x = some (int8 (a.dedup.length : Int))) := by
  induction l using List.reverseRecOn with
  | nil =>
    refine ⟨rfl, ?_, ?_⟩
    · intro x; simp [addFiles, NewStorage, mapKeys]
    · intro a b x h; simp at h
  | append_singleton l y ih =>
    obtain ⟨ih1, ih2, ih3⟩ := ih
    rw [addFiles_append_singleton, dedup_length_append_singleton]
    cases hg : mapGet (addFiles NewStorage l).file y with
    | some idx =>
      have hy : y ∈ l := (ih2 y).1 ((mapGet_isSome_iff _ _).1 (by simp [hg]))
      have hst : (AddFile (addFiles NewStorage l) y).1 = addFiles NewStorage l := by
        simp [AddFile, hg]
      rw [hst]
      refine ⟨by simp [hy, ih1], ?_, ?_⟩
      · intro x
        rw [ih2 x]
        simp only [List.mem_append, List.mem_singleton]
        constructor
        · intro h; exact Or.inl h
        · rintro (h | h)
          · exact h
          · rw [h]; exact hy
      · intro a b x h hx
        rcases List.eq_nil_or_concat b with hb | ⟨b2, y2, hb⟩
        · subst hb
          have h2 : l ++ [y] = a ++ [x] := h
          obtain ⟨h3, h4⟩ := List.append_inj' h2 rfl
          simp at h4
          subst h3; subst h4
          exact absurd hy hx
        · subst hb
          have h2 : l ++ [y] = (a ++ x :: b2) ++ [y2] := by
            rw [h]; simp
          obtain ⟨h3, _⟩ := List.append_inj' h2 rfl
          exact ih3 a b2 x h3 hx
    | none =>
      have hy : y ∉ l := fun h => (mapGet_eq_none_iff _ _).1 hg ((ih2 y).2 h)
      have hst : (AddFile (addFiles NewStorage l) y).1.file
          = mapSet (addFiles NewStorage l).file y
              (int8 ((addFiles NewStorage l).file.length : Int)) := by
        simp [AddFile, hg]
      rw [hst]
      refine ⟨by rw [length_mapSet_of_none _ _ _ hg]; simp [hy, ih1], ?_, ?_⟩
      · intro x
        rw [mem_mapKeys_mapSet, ih2 x]
        simp only [List.mem_append, List.mem_singleton]
        exact or_comm
      · intro a b x h hx
        rcases List.eq_nil_or_concat b with hb | ⟨b2, y2, hb⟩
        · subst hb
          have h2 : l ++ [y] = a ++ [x] := h
          obtain ⟨h3, h4⟩ := List.append_inj' h2 rfl
          simp at h4
          subst h3; subst h4
          rw [mapGet_mapSet_self, ih1]
        · subst hb
          have h2 : l ++ [y] = (a ++ x :: b2) ++ [y2] := by
            rw [h]; simp
          obtain ⟨h3, _⟩ := List.append_inj' h2 rfl
          have hxl : x ∈ l := by rw [h3]; simp
          have hne : x ≠ y := fun e => hy (e ▸ hxl)
          rw [mapGet_mapSet_ne _ _ _ _ hne]
          exact ih3 a b2 x h3 hx

/-- The ids of `AddFile` along a sequence of calls on a new storage with at most 128
distinct names, for a name `x` whose first occurrence comes after the calls `a` and is
followed by the calls `b`: the first call with `x` returns the number of distinct names
in `a`; a later call with `x` returns the same number and leaves the storage as it is. -/
theorem addFile_first_and_repeat (a b : List String) (x : String) (hx : x ∉ a)
    (hn : (a ++ x :: b).dedup.length ≤ 128) :
    (AddFile (addFiles NewStorage a) x).2 = (a.dedup.length : Int) ∧
    (AddFile (addFiles NewStorage (a ++ x :: b)) x).2 = (a.dedup.length : Int) ∧
    (AddFile (addFiles NewStorage (a ++ x :: b)) x).1
      = addFiles NewStorage (a ++ x :: b) := by
  have hlt : a.dedup.length < 128 := by
    have := dedup_length_lt_of_first_occurrence a b x hx
    omega
  obtain ⟨h1, h2, _⟩ := file_table_of_addFiles a
  obtain ⟨_, _, h3⟩ := file_table_of_addFiles (a ++ x :: b)
  have hg1 : mapGet (addFiles NewStorage a).file x = none :=
    (mapGet_eq_none_iff _ _).2 (fun h => hx ((h2 x).1 h))
  have hg2 := h3 a b x rfl hx
  rw [int8_of_lt _ hlt] at hg2
  refine ⟨?_, ?_, ?_⟩
  · simp [AddFile, hg1, h1, int8_of_lt _ hlt]
  · simp [AddFile, hg2]
  · simp [AddFile, hg2]

theorem takeWhile_ne_first_occurrence (a c : List String) (x : String) (hx : x ∉ a) :
    (a ++ x :: c).takeWhile (fun y => decide (y ≠ x)) = a := by
  rw [List.takeWhile_append_of_pos]
  · simp [List.takeWhile]
  · intro y hy
    have : y ≠ x := fun e => hx (e ▸ hy)
    simp [this]

theorem dedup_length_le_of_subset (l1 l2 : List String) (h : ∀ z, z ∈ l1 → z ∈ l2) :
    l1.dedup.length ≤ l2.dedup.length := by
  rw [← List.card_toFinset, ← List.card_toFinset]
  apply Finset.card_le_card
  intro z hz
  exact List.mem_toFinset.2 (h z (List.mem_toFinset.1 hz))

/-- The id that call number `j` of the sequence `names` of `AddFile` calls on a new
storage returns. -/
theorem addFile_id_at (names : List String) (hn : names.dedup.length ≤ 128) (j : Nat)
    (hj : j < names.length) :
    (AddFile (addFiles NewStorage (names.take j)) names[j]).2
      = (((names.takeWhile (fun y => decide (y ≠ names[j]))).dedup.length : Nat) : Int) ∧
    (names[j] ∈ names.take j →
      (AddFile (addFiles NewStorage (names.take j)) names[j]).1
        = addFiles NewStorage (names.take j)) := by
  have hsplit : names = names.take j ++ names[j] :: names.drop (j + 1) := by
    rw [← List.drop_eq_getElem_cons hj, List.take_append_drop]
  generalize names[j] = x at hsplit ⊢
  by_cases hmem : x ∈ names.take j
  · obtain ⟨a, b, hab, hxa⟩ := List.eq_append_cons_of_mem hmem
    have hnames : names = a ++ x :: (b ++ x :: names.drop (j + 1)) := by
      conv_lhs => rw [hsplit, hab]
      simp
    have hle : (a ++ x :: b).dedup.length ≤ 128 := by
      refine le_trans (dedup_length_le_of_subset _ names ?_) hn
      intro z hz
      rw [← hab] at hz
      exact List.mem_of_mem_take hz
    obtain ⟨_, h2, h3⟩ := addFile_first_and_repeat a b x hxa hle
    have htw : names.takeWhile (fun y => decide (y ≠ x)) = a := by
      conv_lhs => rw [hnames]
      exact takeWhile_ne_first_occurrence a _ x hxa
    rw [htw, hab]
    exact ⟨h2, fun _ => h3⟩
  · have hle : (names.take j ++ x :: []).dedup.length ≤ 128 := by
      refine le_trans (dedup_length_le_of_subset _ names ?_) hn
      intro z hz
      rw [hsplit]
      simp at hz ⊢
      tauto
    obtain ⟨h1, _, _⟩ := addFile_first_and_repeat (names.take j) [] x hmem hle
    have htw : names.takeWhile (fun y => decide (y ≠ x)) = names.take j := by
      conv_lhs => rw [hsplit]
      exact takeWhile_ne_first_occurrence _ _ x hmem
    rw [htw]
    exact ⟨h1, fun h => absurd h hmem⟩

/-- C10 (`AddFile` dedups and numbers sequentially).  Take a sequence `names` of `AddFile`
calls on a new storage that holds at most 128 distinct names.  Call number `j` returns
the number of distinct names that come before the first occurrence of its argument
`names[j]` in the sequence; two calls with the same name return the same id; and a call
whose name occurred before leaves the storage, the file table included, as it is. -/
theorem addFile_sequential (names : List String) (hn : names.dedup.length ≤ 128)
    (j : Nat) (hj : j < names.length) :
    (AddFile (addFiles NewStorage (names.take j)) names[j]).2
      = (((names.takeWhile (fun y => decide (y ≠ names[j]))).dedup.length : Nat) : Int) ∧
    (∀ (i : Nat) (hi : i < names.length), names[i] = names[j] →
      (AddFile (addFiles NewStorage (names.take i)) names[i]).2
        = (AddFile (addFiles NewStorage (names.take j)) names[j]).2) ∧
    (names[j] ∈ names.take j →
      (AddFile (addFiles NewStorage (names.take j)) names[j]).1
        = addFiles NewStorage (names.take j)) := by
  obtain ⟨h1, h2⟩ := addFile_id_at names hn j hj
  refine ⟨h1, ?_, h2⟩
  intro i hi he
  rw [(addFile_id_at names hn i hi).1, h1, he]

/-- Witness of C10: the calls `AddFile("x")`, `AddFile("y")`, `AddFile("x")`,
`AddFile("y")`; the last call returns the id 1, as the first call with `y` did, and
changes nothing. -/
theorem addFile_sequential_witness :
    (AddFile (addFiles NewStorage ["x", "y", "x"]) "y").2 = 1 ∧
    (AddFile (addFiles NewStorage ["x"]) "y").2
      = (AddFile (addFiles NewStorage ["x", "y", "x"]) "y").2 ∧
    (AddFile (addFiles NewStorage ["x", "y", "x"]) "y").1
      = addFiles NewStorage ["x", "y", "x"] :=
  have h := addFile_sequential ["x", "y", "x", "y"] (by decide) 3 (by decide)
  ⟨h.1, h.2.1 1 (by decide) (by decide), h.2.2 (by decide)⟩

/-! ## File-id overflow and the empty key -/

/-- C11 (file-id overflow).  On a storage whose file table has `n` entries, `AddFile` with
a name that is not in the table returns the id `((n + 128) mod 256) - 128` and records it
under the name; there is no error result.  The id is `-128` for `n = 128` and negative
for `128 ≤ n ≤ 255`. -/
theorem addFile_overflow (s : Storage) (file : String) (h : mapGet s.file file = none) :
    (AddFile s file).2 = ((s.file.length : Int) + 128) % 256 - 128 ∧
    mapGet (RawFile (AddFile s file).1) file = some (((s.file.length : Int) + 128) % 256 - 128) ∧
    (s.file.length = 128 → (AddFile s file).2 = -128) ∧
    (128 ≤ s.file.length → s.file.length ≤ 255 → (AddFile s file).2 < 0) := by
  have h1 : (AddFile s file).2 = ((s.file.length : Int) + 128) % 256 - 128 := by
    simp [AddFile, h, int8]
  refine ⟨h1, ?_, ?_, ?_⟩
  · simp [AddFile, h, int8, RawFile, mapGet_mapSet_self]
  · intro hn
    rw [h1, hn]
    decide
  · intro hlo hhi
    rw [h1]
    omega

set_option maxRecDepth 100000 in
/-- Witness of C11: on a file table with 128 names, `AddFile` with a new name returns
the id -128. -/
theorem addFile_overflow_witness : (AddFile storage128 "b").2 = -128 :=
  (addFile_overflow storage128 "b" (by decide)).2.2.1 (by decide)

/-- C12 (the empty key is rejected).  For every storage state, value and file id,
`Set("", v, f)` returns the error "key is empty" and leaves the storage, that is the
root, the flat map and the file table, as it is; the root of a new storage stays
absent. -/
theorem set_empty_key (s : Storage) (v : String) (f : Int) :
    (Set s "" v f).2 = some (.text "key is empty") ∧
    (Set s "" v f).1 = s ∧
    (Set s "" v f).1.root = s.root ∧
    (Set s "" v f).1.data = s.data ∧
    (Set s "" v f).1.file = s.file ∧
    (Set NewStorage "" v f).1.root = none := by
  simp [Set, NewStorage]

/-! ## The invariants I1, I2, I3 -/

/-- Two paths that end on leaf markers of the same tree, one a prefix of the other, are
equal. -/
theorem eq_of_prefix_of_leaves (n : Option treeNode) (Q1 Q2 : List Path)
    (h1 : walk Q1 n = some none) (h2 : walk Q2 n = some none) (hpre : Q1 <+: Q2) :
    Q1 = Q2 := by
  obtain ⟨more, hm⟩ := hpre
  rw [← hm] at h2
  obtain ⟨m1, hw1, hw2⟩ := walk_prefix_isSome _ _ _ _ h2
  rw [h1] at hw1
  cases hw1
  have := (walk_none_eq more _ hw2).1
  rw [← hm, this, List.append_nil]

/-- Two paths that end on leaf markers and agree on their first `i` segments have the
same type at segment `i`: the type of the node at that position. -/
theorem typ_eq_of_leaves (n : Option treeNode) (Q1 Q2 : List Path) (i : Nat)
    (hi1 : i < Q1.length) (hi2 : i < Q2.length)
    (h1 : walk Q1 n = some none) (h2 : walk Q2 n = some none)
    (hpre : Q1.take i = Q2.take i) : Q1[i].Typ = Q2[i].Typ := by
  have hd1 : Q1 = Q1.take i ++ Q1[i] :: Q1.drop (i + 1) := by
    rw [← List.drop_eq_getElem_cons hi1, List.take_append_drop]
  have hd2 : Q2 = Q1.take i ++ Q2[i] :: Q2.drop (i + 1) := by
    rw [hpre, ← List.drop_eq_getElem_cons hi2, List.take_append_drop]
  rw [hd1] at h1
  rw [hd2] at h2
  obtain ⟨m1, hw1, hx1⟩ := walk_prefix_isSome _ _ _ _ h1
  obtain ⟨m2, hw2, hx2⟩ := walk_prefix_isSome _ _ _ _ h2
  rw [hw1] at hw2
  cases hw2
  cases m1 with
  | none => simp [walk] at hx1
  | some nd =>
    obtain ⟨t, d⟩ := nd
    rw [(walk_cons_some _ _ t d _ hx1).1, (walk_cons_some _ _ t d _ hx2).1]

/-- C14 (invariant I3: no position is both leaf and container).  In a storage reached
from `NewStorage` by calls of `Set`, successful or failing (and of `AddFile`), the decoded
path of a key of the flat map is never a strict prefix of the decoded path of another
key of the flat map: if it is a prefix, the two paths are equal. -/
theorem no_stored_strict_prefix (s : Storage) (hs : Reachable s) (k1 k2 : String)
    (Q1 Q2 : List Path) (h1 : k1 ∈ mapKeys s.data) (h2 : k2 ∈ mapKeys s.data)
    (hQ1 : SplitPath k1 = .ok Q1) (hQ2 : SplitPath k2 = .ok Q2) (hpre : Q1 <+: Q2) :
    Q1 = Q2 := by
  have hinv := Inv_of_reachable s hs
  obtain ⟨P1, hP1, hw1⟩ := hinv.leafOfKey k1 h1
  obtain ⟨P2, hP2, hw2⟩ := hinv.leafOfKey k2 h2
  rw [hQ1] at hP1
  rw [hQ2] at hP2
  cases hP1
  cases hP2
  exact eq_of_prefix_of_leaves s.root Q1 Q2 hw1 hw2 hpre

/-- Witness of C14: after `Set("a.b")`, the failing `Set("a.b.c")` and `Set("a.c")`, with
the key `a.b` taken twice. -/
theorem no_stored_strict_prefix_witness :
    ([⟨.Key, "a"⟩, ⟨.Key, "b"⟩] : List Path) = [⟨.Key, "a"⟩, ⟨.Key, "b"⟩] :=
  no_stored_strict_prefix
    (Set (Set (Set NewStorage "a.b" "v" 0).1 "a.b.c" "v" 0).1 "a.c" "v" 0).1
    (Reachable.set _ _ _ _ (Reachable.set _ _ _ _ (Reachable.set _ _ _ _ Reachable.new)))
    "a.b" "a.b" [⟨.Key, "a"⟩, ⟨.Key, "b"⟩] [⟨.Key, "a"⟩, ⟨.Key, "b"⟩]
    (by decide) (by decide) (by decide) (by decide) (by decide)

theorem setLoop_root_typ (path : List Path) (i : Nat) (rest : List Path) (t : PathType)
    (d : List (String × Option treeNode)) :
    ∃ d2, (setLoop path i rest (some (.mk t d))).1 = some (.mk t d2) := by
  cases rest with
  | nil => exact ⟨d, rfl⟩
  | cons p tl =>
    by_cases ht : p.Typ = t
    · rw [setLoop_cons path i p tl t d ht]
      exact ⟨_, rfl⟩
    · exact ⟨d, by simp [setLoop, ht]⟩

/-- A call of `Set` keeps the type recorded in a root that is present. -/
theorem Set_root_typ (s : Storage) (key val : String) (file : Int) (r : treeNode)
    (hr : s.root = some r) :
    ∃ r2, (Set s key val file).1.root = some r2 ∧ r2.Typ = r.Typ := by
  by_cases herr : (Set s key val file).2 = none
  · obtain ⟨path, _, _, _, _, hst⟩ := Set_ok s key val file herr
    rw [hst]
    obtain ⟨t, d⟩ := r
    obtain ⟨d2, hd2⟩ := setLoop_root_typ path 0 path t d
    refine ⟨.mk t d2, ?_, rfl⟩
    simp only [rootFor, hr]
    exact hd2
  · rw [Set_error_unchanged s key val file herr]
    exact ⟨r, hr, rfl⟩

/-- A successful call of `Set` on a storage without a root makes a root of the type of
the first segment of the key. -/
theorem Set_first_root_typ (s : Storage) (key val : String) (file : Int) (P : List Path)
    (hr : s.root = none) (hP : SplitPath key = .ok P)
    (hok : (Set s key val file).2 = none) :
    ∃ r2 x, (Set s key val file).1.root = some r2 ∧ P.head? = some x ∧ r2.Typ = x.Typ := by
  obtain ⟨path, hp, hne, _, _, hst⟩ := Set_ok s key val file hok
  rw [hP] at hp
  cases hp
  rw [hst]
  cases P with
  | nil => exact absurd rfl hne
  | cons p0 tl =>
    obtain ⟨d2, hd2⟩ := setLoop_root_typ (p0 :: tl) 0 (p0 :: tl) p0.Typ []
    refine ⟨.mk p0.Typ d2, p0, ?_, rfl, rfl⟩
    simp only [rootFor, hr, List.headD_cons]
    exact hd2

theorem root_typ_of_reachableFrom (s0 s : Storage) (r : treeNode) (hr : s0.root = some r)
    (h : ReachableFrom s0 s) : ∃ r2, s.root = some r2 ∧ r2.Typ = r.Typ := by
  induction h with
  | refl => exact ⟨r, hr, rfl⟩
  | set s key val file _ ih =>
    obtain ⟨r1, hr1, ht1⟩ := ih
    obtain ⟨r2, hr2, ht2⟩ := Set_root_typ s key val file r1 hr1
    exact ⟨r2, hr2, ht2.trans ht1⟩
  | addFile s file _ ih =>
    obtain ⟨r1, hr1, ht1⟩ := ih
    refine ⟨r1, ?_, ht1⟩
    rw [← hr1]
    unfold AddFile; cases mapGet s.file file <;> rfl

theorem root_none_of_data_nil (s : Storage) (hs : Inv s) (hd : s.data = []) :
    s.root = none := by
  cases hr : s.root with
  | none => rfl
  | some r =>
    obtain ⟨more, hm⟩ := hs.leafBelow [] r (by simp [walk, hr])
    have hne : [] ++ more ≠ [] := by
      intro e
      rw [e] at hm
      simp [walk, hr] at hm
    obtain ⟨k, hk, _⟩ := hs.keyOfLeaf _ hne hm
    simp [hd, mapKeys] at hk

/-- C15 (invariant I1: one shape per tree position).  In a storage reached from
`NewStorage`: two keys of the flat map whose decoded paths agree on their first `i`
segments and are both longer than `i` have the same path type at segment `i`; the first
segment of every key of the flat map has the path type recorded in the root; and when
the flat map is still empty and a call of `Set` succeeds, the root of every storage
reached from there records the type of the first segment of that key. -/
theorem one_shape_per_position (s : Storage) (hs : Reachable s) :
    (∀ (k1 k2 : String) (Q1 Q2 : List Path) (i : Nat) (hi1 : i < Q1.length)
        (hi2 : i < Q2.length), k1 ∈ mapKeys s.data → k2 ∈ mapKeys s.data →
        SplitPath k1 = .ok Q1 → SplitPath k2 = .ok Q2 → Q1.take i = Q2.take i →
        Q1[i].Typ = Q2[i].Typ) ∧
    (∀ (k : String) (Q : List Path), k ∈ mapKeys s.data → SplitPath k = .ok Q →
        ∃ r x, s.root = some r ∧ Q.head? = some x ∧ x.Typ = r.Typ) ∧
    (∀ (key val : String) (file : Int) (P : List Path) (s2 : Storage),
        s.data = [] → SplitPath key = .ok P → (Set s key val file).2 = none →
        ReachableFrom (Set s key val file).1 s2 →
        ∃ r x, s2.root = some r ∧ P.head? = some x ∧ r.Typ = x.Typ) := by
  have hinv := Inv_of_reachable s hs
  refine ⟨?_, ?_, ?_⟩
  · intro k1 k2 Q1 Q2 i hi1 hi2 h1 h2 hQ1 hQ2 hpre
    obtain ⟨P1, hP1, hw1⟩ := hinv.leafOfKey k1 h1
    obtain ⟨P2, hP2, hw2⟩ := hinv.leafOfKey k2 h2
    rw [hQ1] at hP1
    rw [hQ2] at hP2
    cases hP1
    cases hP2
    exact typ_eq_of_leaves s.root Q1 Q2 i hi1 hi2 hw1 hw2 hpre
  · intro k Q hk hQ
    obtain ⟨P, hP, hw⟩ := hinv.leafOfKey k hk
    rw [hQ] at hP
    cases hP
    obtain ⟨r, hr⟩ := root_isSome_of_key s hinv k hk
    rw [hr] at hw
    cases Q with
    | nil => simp [walk] at hw
    | cons x tl =>
      obtain ⟨t, d⟩ := r
      exact ⟨.mk t d, x, hr, rfl, (walk_cons_some x tl t d _ hw).1⟩
  · intro key val file P s2 hd hP hok hreach
    have hroot := root_none_of_data_nil s hinv hd
    obtain ⟨r1, x, hr1, hx, ht⟩ := Set_first_root_typ s key val file P hroot hP hok
    obtain ⟨r2, hr2, ht2⟩ := root_typ_of_reachableFrom _ s2 r1 hr1 hreach
    exact ⟨r2, x, hr2, hx, ht2.trans ht⟩

/-- Witness of C15: after `Set("a.b")` and `Set("a.c")` the stored keys `a.b` and `a.c`
have the same type at segment 1. -/
theorem one_shape_per_position_witness :
    (⟨.Key, "b"⟩ : Path).Typ = (⟨.Key, "c"⟩ : Path).Typ :=
  (one_shape_per_position (Set (Set NewStorage "a.b" "v" 0).1 "a.c" "v" 0).1
    (Reachable.set _ _ _ _ (Reachable.set _ _ _ _ Reachable.new))).1
    "a.b" "a.c" [⟨.Key, "a"⟩, ⟨.Key, "b"⟩] [⟨.Key, "a"⟩, ⟨.Key, "c"⟩] 1
    (by decide) (by decide) (by decide) (by decide) (by decide) (by decide) (by decide)

theorem walkElems_typed (elems : List String) :
    ∀ (n m : Option treeNode), walkElems elems n = some m →
      ∃ path : List Path, path.map Path.Elem = elems ∧ walk path n = some m := by
  induction elems with
  | nil =>
    intro n m h
    exact ⟨[], rfl, h⟩
  | cons e rest ih =>
    intro n m h
    cases n with
    | none => simp [walkElems] at h
    | some nd =>
      obtain ⟨t, d⟩ := nd
      simp only [walkElems] at h
      cases hg : mapGet d e with
      | none => simp [hg] at h
      | some v =>
        simp only [hg] at h
        obtain ⟨path, hp, hw⟩ := ih v m h
        refine ⟨⟨t, e⟩ :: path, by simp [hp], ?_⟩
        simp [walk, hg, hw]

/-- The steps of a walk that ends somewhere: at every position before the end there is
a node of the segment's type with a child for the segment's text. -/
theorem walk_steps (Q : List Path) (n m : Option treeNode) (h : walk Q n = some m)
    (i : Nat) (hi : i < Q.length) :
    ∃ t d v, walk (Q.take i) n = some (some (.mk t d)) ∧ Q[i].Typ = t ∧
      mapGet d Q[i].Elem = some v := by
  have hd : Q = Q.take i ++ Q[i] :: Q.drop (i + 1) := by
    rw [← List.drop_eq_getElem_cons hi, List.take_append_drop]
  rw [hd] at h
  obtain ⟨m1, hw1, hx⟩ := walk_prefix_isSome _ _ _ _ h
  cases m1 with
  | none => simp [walk] at hx
  | some nd =>
    obtain ⟨t, d⟩ := nd
    obtain ⟨ht, v, hv, _⟩ := walk_cons_some _ _ t d _ hx
    exact ⟨t, d, v, hw1, ht, hv⟩

/-- C16 (invariant I2: the flat map and the tree agree).  In a storage reached from
`NewStorage`: every key of the flat map decodes, the walk of its segments from the root
finds at every step a node of the segment's type with a child for the segment's text,
and the walk ends at a leaf marker; conversely every leaf marker of the tree, reached
from the root through the child names `elems`, is the end of the walk of a key of the
flat map. -/
theorem flat_map_tree_agree (s : Storage) (hs : Reachable s) :
    (∀ k, k ∈ mapKeys s.data → ∃ Q, SplitPath k = .ok Q ∧
      (∀ (i : Nat) (hi : i < Q.length), ∃ t d v,
        walk (Q.take i) s.root = some (some (.mk t d)) ∧ Q[i].Typ = t ∧
        mapGet d Q[i].Elem = some v) ∧
      walk Q s.root = some none) ∧
    (∀ elems, elems ≠ [] → walkElems elems s.root = some none →
      ∃ k Q, k ∈ mapKeys s.data ∧ SplitPath k = .ok Q ∧ Q.map Path.Elem = elems ∧
        walk Q s.root = some none) := by
  have hinv := Inv_of_reachable s hs
  constructor
  · intro k hk
    obtain ⟨Q, hQ, hw⟩ := hinv.leafOfKey k hk
    exact ⟨Q, hQ, fun i hi => walk_steps Q s.root none hw i hi, hw⟩
  · intro elems hne hw
    obtain ⟨path, hp, hwp⟩ := walkElems_typed elems s.root none hw
    have hpne : path ≠ [] := by
      intro e
      rw [e] at hp
      exact hne hp.symm
    obtain ⟨k, hk, hQ⟩ := hinv.keyOfLeaf path hpne hwp
    exact ⟨k, path, hk, hQ, hp, hwp⟩

/-- Witness of C16: after `Set("a.b")` and `Set("a.c")`, the key `a.c` ends on a leaf
marker. -/
theorem flat_map_tree_agree_witness :
    ∃ Q, SplitPath "a.c" = .ok Q ∧
      (∀ (i : Nat) (hi : i < Q.length), ∃ t d v,
        walk (Q.take i) (Set (Set NewStorage "a.b" "v" 0).1 "a.c" "v" 0).1.root
          = some (some (.mk t d)) ∧ Q[i].Typ = t ∧ mapGet d Q[i].Elem = some v) ∧
      walk Q (Set (Set NewStorage "a.b" "v" 0).1 "a.c" "v" 0).1.root = some none :=
  (flat_map_tree_agree (Set (Set NewStorage "a.b" "v" 0).1 "a.c" "v" 0).1
    (Reachable.set _ _ _ _ (Reachable.set _ _ _ _ Reachable.new))).1 "a.c" (by decide)

/-! ## Atomicity -/

/-- C19 (`Set` is atomic on failure).  For every storage state, key, value and file id:
when `Set` returns an error (empty key, parse error or conflict), the storage, that is
the tree, the flat map and the file table, is as before the call.  The reason: once a
step of the loop has stored a new child for the segment `p` at position `i`, the rest of
the loop ends on a leaf marker without an error. -/
theorem set_atomic_on_failure (s : Storage) (key val : String) (file : Int) :
    ((Set s key val file).2 ≠ none →
      (Set s key val file).1 = s ∧ (Set s key val file).1.root = s.root ∧
      (Set s key val file).1.data = s.data ∧ (Set s key val file).1.file = s.file) ∧
    (∀ (path : List Path) (i : Nat) (p : Path) (rest : List Path),
      path.drop i = p :: rest →
      (setLoop path (i + 1) rest (newChild path i)).2 = .ok none) := by
  constructor
  · intro h
    have := Set_error_unchanged s key val file h
    exact ⟨this, by rw [this], by rw [this], by rw [this]⟩
  · intro path i p rest h
    exact setLoop_newChild path rest i p h

/-- Witness of C19: after `Set("a.b")` the failing calls `Set("a.b.c.d")` and
`Set("a..b")` leave the storage as it is. -/
theorem set_atomic_on_failure_witness :
    (Set (Set NewStorage "a.b" "v" 0).1 "a.b.c.d" "w" 1).1 = (Set NewStorage "a.b" "v" 0).1 ∧
    (Set (Set NewStorage "a.b" "v" 0).1 "a..b" "w" 1).1 = (Set NewStorage "a.b" "v" 0).1 :=
  ⟨((set_atomic_on_failure (Set NewStorage "a.b" "v" 0).1 "a.b.c.d" "w" 1).1
      (by decide)).1,
   ((set_atomic_on_failure (Set NewStorage "a.b" "v" 0).1 "a..b" "w" 1).1
      (by decide)).1⟩

/-! ## The outcome of `Set` -/

/-- How the walk of a path from a node goes: it resolves, or it is blocked after the
segments `common` by a nil node or a node of another type, or it comes after the segments
`common` to a container of the right type without a child for the next segment. -/
theorem walk_cases (P : List Path) :
    ∀ n : Option treeNode,
      (∃ m, walk P n = some m) ∨
      (∃ common x tl m, P = common ++ x :: tl ∧ walk common n = some m ∧ blocks m x) ∨
      (∃ common x tl t d, P = common ++ x :: tl ∧
        walk common n = some (some (.mk t d)) ∧ x.Typ = t ∧ mapGet d x.Elem = none) := by
  induction P with
  | nil => intro n; exact Or.inl ⟨n, rfl⟩
  | cons p tl ih =>
    intro n
    cases n with
    | none => exact Or.inr (Or.inl ⟨[], p, tl, none, rfl, rfl, Or.inl rfl⟩)
    | some nd =>
      obtain ⟨t, d⟩ := nd
      by_cases ht : p.Typ = t
      · cases hg : mapGet d p.Elem with
        | none => exact Or.inr (Or.inr ⟨[], p, tl, t, d, rfl, rfl, ht, hg⟩)
        | some v =>
          have hstep : ∀ qs, walk (p :: qs) (some (.mk t d)) = walk qs v := by
            intro qs
            simp [walk, ht, hg]
          rcases ih v with ⟨m, hm⟩ | ⟨common, x, tl2, m, he, hw, hb⟩ |
              ⟨common, x, tl2, t2, d2, he, hw, hx, hg2⟩
          · exact Or.inl ⟨m, by rw [hstep]; exact hm⟩
          · exact Or.inr (Or.inl ⟨p :: common, x, tl2, m, by rw [he]; rfl,
              by rw [hstep]; exact hw, hb⟩)
          · exact Or.inr (Or.inr ⟨p :: common, x, tl2, t2, d2, by rw [he]; rfl,
              by rw [hstep]; exact hw, hx, hg2⟩)
      · exact Or.inr (Or.inl ⟨[], p, tl, some (.mk t d), rfl, rfl,
          Or.inr ⟨t, d, rfl, ht⟩⟩)

/-- When the walk comes to a container of the right type without a child for the next
segment, the loop of `Set` stores new children to the end and ends on a leaf marker. -/
theorem setLoop_absent (path : List Path) (common : List Path) (x : Path)
    (tl : List Path) (t : PathType) (d : List (String × Option treeNode)) :
    ∀ (i : Nat) (n : Option treeNode), path.drop i = common ++ x :: tl →
      walk common n = some (some (.mk t d)) → x.Typ = t → mapGet d x.Elem = none →
      (setLoop path i (common ++ x :: tl) n).2 = .ok none := by
  induction common with
  | nil =>
    intro i n hd hw hx hg
    simp [walk] at hw
    subst hw
    rw [List.nil_append, setLoop_cons path i x tl t d hx, hg]
    simp only [Option.getD_none]
    exact setLoop_newChild path tl i x hd
  | cons c cs ih =>
    intro i n hd hw hx hg
    cases n with
    | none => simp [walk] at hw
    | some nd =>
      obtain ⟨t1, d1⟩ := nd
      obtain ⟨ht, v, hv, hwv⟩ := walk_cons_some c cs t1 d1 _ hw
      rw [List.cons_append, setLoop_cons path i c _ t1 d1 ht, hv]
      simp only [Option.getD_some]
      exact ih (i + 1) v (drop_succ_of_drop_eq_cons path i c _ hd) hwv hx hg

/-- The error of `Set` on a key that decodes, on a storage with a root, by the walk of
the decoded path. -/
theorem Set_outcome (s : Storage) (key val : String) (file : Int) (P : List Path)
    (r : treeNode) (hP : SplitPath key = .ok P) (hr : s.root = some r) :
    (walk P s.root = some none → (Set s key val file).2 = none) ∧
    (∀ m, walk P s.root = some (some m) →
      (Set s key val file).2 = some (conflictError key)) ∧
    (∀ common x tl m, P = common ++ x :: tl → walk common s.root = some m → blocks m x →
      (Set s key val file).2
        = some (conflictError (JoinPath (P.take (common.length + 1))))) ∧
    (∀ common x tl t d, P = common ++ x :: tl →
      walk common s.root = some (some (.mk t d)) → x.Typ = t → mapGet d x.Elem = none →
      (Set s key val file).2 = none) := by
  have hrf : rootFor s P = s.root := by simp [rootFor, hr]
  rw [Set_eq s key val file P hP, hrf]
  refine ⟨?_, ?_, ?_, ?_⟩
  · intro hw
    rw [setLoop_of_walk P P 0 s.root none hw]
  · intro m hw
    rw [setLoop_of_walk P P 0 s.root (some m) hw]
  · intro common x tl m he hw hb
    have hloop := setLoop_conflict P common x tl 0 s.root m hw hb
    rw [← he, Nat.zero_add] at hloop
    rw [hloop]
  · intro common x tl t d he hw hx hg
    have hloop := setLoop_absent P common x tl t d 0 s.root (by rw [← he]; rfl) hw hx hg
    rw [← he] at hloop
    rw [hloop]

/-- A call of `Set` with a key that decodes, on a storage without a root, returns no
error. -/
theorem Set_ok_of_root_none (s : Storage) (key val : String) (file : Int) (P : List Path)
    (hP : SplitPath key = .ok P) (hr : s.root = none) : (Set s key val file).2 = none := by
  rw [Set_eq s key val file P hP,
    setLoop_rootFor_none s P (SplitPath_ne_nil key P hP) hr]

/-- Two lists: one is a prefix of the other, or they differ at a first position. -/
theorem prefix_or_diverge (P : List Path) :
    ∀ Q : List Path, P <+: Q ∨ Q <+: P ∨
      ∃ (i : Nat) (h1 : i < P.length) (h2 : i < Q.length),
        P.take i = Q.take i ∧ P[i] ≠ Q[i] := by
  induction P with
  | nil => intro Q; exact Or.inl List.nil_prefix
  | cons p tl ih =>
    intro Q
    cases Q with
    | nil => exact Or.inr (Or.inl List.nil_prefix)
    | cons q tq =>
      by_cases hpq : p = q
      · subst hpq
        rcases ih tq with h | h | ⟨i, h1, h2, ht, hne⟩
        · exact Or.inl ((List.prefix_cons_inj p).2 h)
        · exact Or.inr (Or.inl ((List.prefix_cons_inj p).2 h))
        · refine Or.inr (Or.inr ⟨i + 1, by simp; omega, by simp; omega, ?_, ?_⟩)
          · simp [ht]
          · simpa using hne
      · exact Or.inr (Or.inr ⟨0, by simp, by simp, by simp, by simpa using hpq⟩)

theorem getElem?_eq_of_take_eq (P Q : List Path) (i j : Nat) (h : P.take i = Q.take i)
    (hj : j < i) : P[j]? = Q[j]? := by
  have h1 : (P.take i)[j]? = P[j]? := by rw [List.getElem?_take, if_pos hj]
  have h2 : (Q.take i)[j]? = Q[j]? := by rw [List.getElem?_take, if_pos hj]
  rw [← h1, ← h2, h]

/-- A path that runs into a stored path, or leaves one at a segment of another type, is
not compatible with it: the two paths `common ++ x :: tl` and `common ++ y :: tl2` do
not differ first at a position with equal types when `x` and `y` have different
types. -/
theorem not_compatible_of_typ_ne (common : List Path) (x y : Path) (tl tl2 : List Path)
    (hxy : x.Typ ≠ y.Typ) (i : Nat) (a b : Path)
    (ha : (common ++ x :: tl)[i]? = some a) (hb : (common ++ y :: tl2)[i]? = some b)
    (ht : (common ++ x :: tl).take i = (common ++ y :: tl2).take i)
    (hty : a.Typ = b.Typ) (hel : a.Elem ≠ b.Elem) : False := by
  rcases Nat.lt_trichotomy i common.length with hlt | heq | hgt
  · rw [List.getElem?_append_left hlt] at ha hb
    rw [ha] at hb
    cases hb
    exact hel rfl
  · subst heq
    rw [List.getElem?_append_right (le_refl _)] at ha hb
    simp at ha hb
    subst ha; subst hb
    exact hxy hty
  · have h := getElem?_eq_of_take_eq _ _ i common.length ht hgt
    rw [List.getElem?_append_right (le_refl _), List.getElem?_append_right (le_refl _)] at h
    simp at h
    subst h
    exact hxy rfl

/-- C18 (`Set` succeeds exactly on compatible keys).  In a storage reached from
`NewStorage`, for a key that decodes to `P` (so it is not empty), `Set(key, v, f)` returns
no error if and only if for every key of the flat map with decoded path `Q` either
`P = Q`, or there is a position `i` inside both paths before which they agree and at
which the two segments have the same path type and different texts; in particular the
call returns no error when the flat map is empty. -/
theorem set_succeeds_iff_compatible (s : Storage) (hs : Reachable s) (key val : String)
    (file : Int) (P : List Path) (hP : SplitPath key = .ok P) :
    ((Set s key val file).2 = none ↔
      ∀ q Q, q ∈ mapKeys s.data → SplitPath q = .ok Q →
        P = Q ∨ ∃ (i : Nat) (a b : Path), P[i]? = some a ∧ Q[i]? = some b ∧
          P.take i = Q.take i ∧ a.Typ = b.Typ ∧ a.Elem ≠ b.Elem) ∧
    (s.data = [] → (Set s key val file).2 = none) := by
  have hinv := Inv_of_reachable s hs
  have hiff : (Set s key val file).2 = none ↔
      ∀ q Q, q ∈ mapKeys s.data → SplitPath q = .ok Q →
        P = Q ∨ ∃ (i : Nat) (a b : Path), P[i]? = some a ∧ Q[i]? = some b ∧
          P.take i = Q.take i ∧ a.Typ = b.Typ ∧ a.Elem ≠ b.Elem := by
    constructor
    · intro hok q Q hq hQ
      have hinv2 := Inv_of_reachable _ (Reachable.set s key val file hs)
      obtain ⟨path, hp, _, _, _, hst⟩ := Set_ok s key val file hok
      have hk1 : key ∈ mapKeys (Set s key val file).1.data := by
        rw [hst]; exact (mem_mapKeys_mapSet _ _ _ _).2 (Or.inl rfl)
      have hk2 : q ∈ mapKeys (Set s key val file).1.data := by
        rw [hst]; exact (mem_mapKeys_mapSet _ _ _ _).2 (Or.inr hq)
      obtain ⟨P1, hP1, hw1⟩ := hinv2.leafOfKey key hk1
      obtain ⟨Q1, hQ1, hw2⟩ := hinv2.leafOfKey q hk2
      rw [hP] at hP1
      rw [hQ] at hQ1
      cases hP1
      cases hQ1
      rcases prefix_or_diverge P Q with h | h | ⟨i, h1, h2, ht, hne⟩
      · exact Or.inl (eq_of_prefix_of_leaves _ P Q hw1 hw2 h)
      · exact Or.inl (eq_of_prefix_of_leaves _ Q P hw2 hw1 h).symm
      · refine Or.inr ⟨i, P[i], Q[i], List.getElem?_eq_getElem h1,
          List.getElem?_eq_getElem h2, ht,
          typ_eq_of_leaves _ P Q i h1 h2 hw1 hw2 ht, ?_⟩
        intro he
        apply hne
        have hty := typ_eq_of_leaves _ P Q i h1 h2 hw1 hw2 ht
        cases hpi : P[i]
        cases hqi : Q[i]
        simp_all
    · intro hcompat
      cases hr : s.root with
      | none => exact Set_ok_of_root_none s key val file P hP hr
      | some r =>
        obtain ⟨o1, o2, o3, o4⟩ := Set_outcome s key val file P r hP hr
        rcases walk_cases P s.root with ⟨m, hm⟩ | ⟨common, x, tl, m, he, hw, hb⟩ |
            ⟨common, x, tl, t, d, he, hw, hx, hg⟩
        · cases m with
          | none => exact o1 hm
          | some m0 =>
            exfalso
            obtain ⟨more, hmore⟩ := hinv.leafBelow P m0 hm
            have hne : more ≠ [] := by
              intro e
              rw [e, List.append_nil, hm] at hmore
              cases hmore
            obtain ⟨q, hq, hQ⟩ := hinv.keyOfLeaf (P ++ more) (by simp [hne]) hmore
            rcases hcompat q _ hq hQ with h | ⟨i, a, b, ha, hb, _, _, hel⟩
            · have := congrArg List.length h
              simp at this
              exact hne this
            · have hi : i < P.length := by
                by_contra hcon
                rw [List.getElem?_eq_none (by omega)] at ha
                cases ha
              rw [List.getElem?_append_left hi, ha] at hb
              cases hb
              exact hel rfl
        · exfalso
          rcases hb with hb | ⟨t, d, hb, hxt⟩
          · subst hb
            have hcne : common ≠ [] := by
              intro e
              rw [e] at hw
              simp [walk, hr] at hw
            obtain ⟨q, hq, hQ⟩ := hinv.keyOfLeaf common hcne hw
            rcases hcompat q _ hq hQ with h | ⟨i, a, b, ha, hb, _, _, hel⟩
            · have := congrArg List.length h
              rw [he] at this
              simp at this
            · have hi : i < common.length := by
                by_contra hcon
                rw [List.getElem?_eq_none (by omega)] at hb
                cases hb
              rw [he, List.getElem?_append_left hi, hb] at ha
              cases ha
              exact hel rfl
          · subst hb
            obtain ⟨more, hmore⟩ := hinv.leafBelow common _ hw
            obtain ⟨m1, hw1, hw2⟩ := walk_prefix_isSome _ _ _ _ hmore
            rw [hw] at hw1
            cases hw1
            cases more with
            | nil => simp [walk] at hw2
            | cons y tl2 =>
              obtain ⟨hyt, _⟩ := walk_cons_some y tl2 t d _ hw2
              have hxy : x.Typ ≠ y.Typ := by rw [hyt]; exact hxt
              obtain ⟨q, hq, hQ⟩ := hinv.keyOfLeaf (common ++ y :: tl2) (by simp) hmore
              rcases hcompat q _ hq hQ with h | ⟨i, a, b, ha, hb, ht, hty, hel⟩
              · rw [he] at h
                have h2 := List.append_cancel_left h
                simp at h2
                exact hxy (by rw [h2.1])
              · rw [he] at ha ht
                exact not_compatible_of_typ_ne common x y tl tl2 hxy i a b ha hb ht hty hel
        · exact o4 common x tl t d he hw hx hg
  refine ⟨hiff, ?_⟩
  intro hd
  rw [hiff]
  intro q Q hq
  simp [hd, mapKeys] at hq

/-- Witness of C18: after `Set("a.b")`, the key `a.c` is accepted and is compatible with
the stored key. -/
theorem set_succeeds_iff_compatible_witness :
    ((Set (Set NewStorage "a.b" "v" 0).1 "a.c" "w" 1).2 = none ↔
      ∀ q Q, q ∈ mapKeys (Set NewStorage "a.b" "v" 0).1.data → SplitPath q = .ok Q →
        [⟨.Key, "a"⟩, ⟨.Key, "c"⟩] = Q ∨
        ∃ (i : Nat) (a b : Path),
          ([⟨.Key, "a"⟩, ⟨.Key, "c"⟩] : List Path)[i]? = some a ∧ Q[i]? = some b ∧
          List.take i [⟨.Key, "a"⟩, ⟨.Key, "c"⟩] = Q.take i ∧
          a.Typ = b.Typ ∧ a.Elem ≠ b.Elem) ∧
    (Set (Set NewStorage "a.b" "v" 0).1 "a.c" "w" 1).2 = none :=
  ⟨(set_succeeds_iff_compatible (Set NewStorage "a.b" "v" 0).1
      (Reachable.set _ _ _ _ Reachable.new) "a.c" "w" 1
      [⟨.Key, "a"⟩, ⟨.Key, "c"⟩] (by decide)).1, by decide⟩

/-! ## Nothing is removed -/

theorem TreeLe_refl (n : Option treeNode) : TreeLe n n := by
  intro qs m h
  exact ⟨m, h, fun c hc => ⟨c, hc, fun e he => he⟩⟩

theorem TreeLe_trans (n1 n2 n3 : Option treeNode) (h12 : TreeLe n1 n2)
    (h23 : TreeLe n2 n3) : TreeLe n1 n3 := by
  intro qs m h
  obtain ⟨m2, hw2, hc2⟩ := h12 qs m h
  obtain ⟨m3, hw3, hc3⟩ := h23 qs m2 hw2
  refine ⟨m3, hw3, ?_⟩
  intro c hc
  obtain ⟨c2, hm2, hk2⟩ := hc2 c hc
  obtain ⟨c3, hm3, hk3⟩ := hc3 c2 hm2
  exact ⟨c3, hm3, fun e he => hk3 e (hk2 e he)⟩

/-- The loop of `Set` keeps every position of the tree, and every child name of every
container. -/
theorem TreeLe_setLoop (path : List Path) (rest : List Path) :
    ∀ (i : Nat) (n : Option treeNode), TreeLe n (setLoop path i rest n).1 := by
  induction rest with
  | nil => intro i n; exact TreeLe_refl n
  | cons p tl ih =>
    intro i n
    cases n with
    | none => exact TreeLe_refl none
    | some nd =>
      obtain ⟨t, d⟩ := nd
      by_cases ht : p.Typ = t
      · rw [setLoop_cons path i p tl t d ht]
        intro qs m hw
        cases qs with
        | nil =>
          simp only [walk, Option.some.injEq] at hw
          subst hw
          refine ⟨_, rfl, ?_⟩
          intro c hc
          cases hc
          refine ⟨_, rfl, ?_⟩
          intro e he
          exact (mem_mapKeys_mapSet d p.Elem e _).2 (Or.inr he)
        | cons q qs =>
          obtain ⟨hq, v, hv, hwv⟩ := walk_cons_some q qs t d m hw
          by_cases he : q.Elem = p.Elem
          · rw [he] at hv
            rw [hv]
            simp only [Option.getD_some]
            obtain ⟨m2, hw2, hc2⟩ := ih (i + 1) v qs m hwv
            refine ⟨m2, ?_, hc2⟩
            simp [walk, hq, he, mapGet_mapSet_self, hw2]
          · refine ⟨m, ?_, fun c hc => ⟨c, hc, fun e h => h⟩⟩
            simp [walk, hq, mapGet_mapSet_ne d p.Elem q.Elem _ he, hv, hwv]
      · have : (setLoop path i (p :: tl) (some (.mk t d))).1 = some (.mk t d) := by
          simp [setLoop, ht]
        rw [this]
        exact TreeLe_refl _

theorem TreeLe_Set (s : Storage) (key val : String) (file : Int) :
    TreeLe s.root (Set s key val file).1.root := by
  by_cases herr : (Set s key val file).2 = none
  · obtain ⟨path, _, _, _, _, hst⟩ := Set_ok s key val file herr
    rw [hst]
    cases hr : s.root with
    | none =>
      intro qs m hw
      obtain ⟨h1, h2⟩ := walk_none_eq qs m hw
      subst h1; subst h2
      exact ⟨_, rfl, fun c hc => by cases hc⟩
    | some r =>
      have hrf : rootFor s path = some r := by simp [rootFor, hr]
      simp only [hrf]
      exact TreeLe_setLoop path path 0 (some r)
  · rw [Set_error_unchanged s key val file herr]
    exact TreeLe_refl _

theorem mapKeys_Set (s : Storage) (key val : String) (file : Int) (q : String)
    (hq : q ∈ mapKeys s.data) : q ∈ mapKeys (Set s key val file).1.data := by
  by_cases herr : (Set s key val file).2 = none
  · obtain ⟨path, _, _, _, _, hst⟩ := Set_ok s key val file herr
    rw [hst]
    exact (mem_mapKeys_mapSet _ _ _ _).2 (Or.inr hq)
  · rw [Set_error_unchanged s key val file herr]
    exact hq

theorem AddFile_root (s : Storage) (file : String) : (AddFile s file).1.root = s.root := by
  unfold AddFile; cases mapGet s.file file <;> rfl

theorem AddFile_data (s : Storage) (file : String) : (AddFile s file).1.data = s.data := by
  unfold AddFile; cases mapGet s.file file <;> rfl

theorem mono_of_reachableFrom (s s2 : Storage) (h : ReachableFrom s s2) :
    TreeLe s.root s2.root ∧ ∀ q, q ∈ mapKeys s.data → q ∈ mapKeys s2.data := by
  induction h with
  | refl => exact ⟨TreeLe_refl _, fun q hq => hq⟩
  | set s1 key val file _ ih =>
    exact ⟨TreeLe_trans _ _ _ ih.1 (TreeLe_Set s1 key val file),
      fun q hq => mapKeys_Set s1 key val file q (ih.2 q hq)⟩
  | addFile s1 file _ ih =>
    rw [AddFile_root, AddFile_data]
    exact ih

theorem reachable_of_reachableFrom (s s2 : Storage) (hs : Reachable s)
    (h : ReachableFrom s s2) : Reachable s2 := by
  induction h with
  | refl => exact hs
  | set s1 key val file _ ih => exact Reachable.set s1 key val file ih
  | addFile s1 file _ ih => exact Reachable.addFile s1 file ih

theorem subKeysLoop_done (path : List Path) (rest : List Path) :
    ∀ (i : Nat) (n m : Option treeNode), subKeysLoop path i rest n = .done m →
      walk rest n = some m := by
  induction rest with
  | nil =>
    intro i n m h
    simp only [subKeysLoop, WalkResult.done.injEq] at h
    simp [walk, h]
  | cons p tl ih =>
    intro i n m h
    cases n with
    | none => simp [subKeysLoop] at h
    | some nd =>
      obtain ⟨t, d⟩ := nd
      simp only [subKeysLoop] at h
      split_ifs at h with ht
      cases hg : mapGet d p.Elem with
      | none => simp [hg] at h
      | some v =>
        simp only [hg] at h
        have := ih (i + 1) v m h
        simp only [walk, ht, if_false, hg]
        exact this

/-- A result of `SubKeys` that is a list comes from a container at the end of the walk
of the decoded key. -/
theorem SubKeys_some (s : Storage) (k : String) (l : List String)
    (h : (SubKeys s k).1 = some l) :
    ∃ P m, ((k = "" ∧ P = []) ∨ SplitPath k = .ok P) ∧
      walk P s.root = some (some m) ∧ l = sortStrings (mapKeys m.Data) ∧
      SubKeys s k = (some l, none) := by
  have hdec : ∃ P, (k = "" ∧ P = []) ∨ SplitPath k = .ok P := by
    by_cases hk : k = ""
    · exact ⟨[], Or.inl ⟨hk, rfl⟩⟩
    · cases hp : SplitPath k with
      | error e => simp [SubKeys, hk, hp] at h
      | ok P => exact ⟨P, Or.inr rfl⟩
  obtain ⟨P, hP⟩ := hdec
  cases hr : s.root with
  | none =>
    exfalso
    unfold SubKeys at h
    rcases hP with ⟨hk, _⟩ | hP
    · simp [hk, hr] at h
    · simp [SplitPath_ok_ne_empty k P hP, hP, hr] at h
  | some r =>
    have heq := SubKeys_eq s k P r hP hr
    rw [heq] at h ⊢
    cases hloop : subKeysLoop P 0 P (some r) with
    | conflict e => simp [hloop] at h
    | absent => simp [hloop] at h
    | done n =>
      cases n with
      | none => simp [hloop] at h
      | some m =>
        simp only [hloop, Option.some.injEq] at h
        have hw := subKeysLoop_done P P 0 (some r) _ hloop
        exact ⟨P, m, hP, hw, h.symm, by simp [h]⟩

/-- C20 (nothing is ever removed).  Let `s` be a storage reached from `NewStorage` by
calls of `Set` and `AddFile`, and `s2` a storage that further calls of `Set` (successful
or failing) and `AddFile` produce from `s`.  Every key with `Has(k)` true in `s` has
`Has(k)` true in `s2`; every key of the flat map of `s` is a key of the flat map of
`s2`; and a result of `SubKeys` that is a list in `s` is, for the same key, a list in
`s2` of which it is a sub-list (read as lists, nil being empty, the result slices of
`SubKeys` in `s` are sub-lists of those in `s2` for every key). -/
theorem nothing_removed (s s2 : Storage) (hs : Reachable s) (h : ReachableFrom s s2) :
    (∀ k, Has s k = true → Has s2 k = true) ∧
    (∀ q, q ∈ mapKeys s.data → q ∈ mapKeys s2.data) ∧
    (∀ k l, SubKeys s k = (some l, none) →
      ∃ l2, SubKeys s2 k = (some l2, none) ∧ l.Sublist l2) ∧
    (∀ k, (sliceToList (SubKeys s k).1).Sublist (sliceToList (SubKeys s2 k).1)) := by
  obtain ⟨hle, hkeys⟩ := mono_of_reachableFrom s s2 h
  have hinv := Inv_of_reachable s hs
  have hinv2 := Inv_of_reachable s2 (reachable_of_reachableFrom s s2 hs h)
  have hsub : ∀ k l, (SubKeys s k).1 = some l →
      ∃ l2, SubKeys s2 k = (some l2, none) ∧ l.Sublist l2 := by
    intro k l hl
    obtain ⟨P, m, hP, hw, hlm, _⟩ := SubKeys_some s k l hl
    obtain ⟨m2, hw2, hc2⟩ := hle P _ hw
    obtain ⟨c2, hm2, hk2⟩ := hc2 m rfl
    subst hm2
    obtain ⟨r2, hr2⟩ : ∃ r2, s2.root = some r2 := by
      cases hr : s2.root with
      | none =>
        rw [hr] at hw2
        have := (walk_none_eq P _ hw2).2
        cases this
      | some r2 => exact ⟨r2, rfl⟩
    refine ⟨sortStrings (mapKeys c2.Data), ?_, ?_⟩
    · rw [SubKeys_eq s2 k P r2 hP hr2, ← hr2, subKeysLoop_of_walk P P 0 s2.root _ hw2]
    · rw [hlm]
      have hnd : (sortStrings (mapKeys m.Data)).Nodup :=
        (sortStrings_perm _).nodup_iff.2 (hinv.nodupKeys P m hw)
      have hss : sortStrings (mapKeys m.Data) ⊆ sortStrings (mapKeys c2.Data) := by
        intro e he
        rw [(sortStrings_perm _).mem_iff] at he ⊢
        exact hk2 e he
      exact List.sublist_of_subperm_of_sorted (List.subperm_of_subset hnd hss)
        (sortStrings_sorted _) (sortStrings_sorted _)
  refine ⟨?_, hkeys, ?_, ?_⟩
  · intro k hk
    rw [Has_iff_walk] at hk ⊢
    obtain ⟨hne, hr, hcase⟩ := hk
    refine ⟨hne, ?_, ?_⟩
    · cases hr1 : s.root with
      | none => exact absurd hr1 hr
      | some r =>
        obtain ⟨m2, hw2, hc2⟩ := hle [] (some r) (by simp [walk, hr1])
        obtain ⟨c2, hm2, _⟩ := hc2 r rfl
        subst hm2
        simp only [walk, Option.some.injEq] at hw2
        rw [hw2]
        simp
    · rcases hcase with h1 | ⟨P, hP, hw⟩
      · exact Or.inl (hkeys k h1)
      · cases hwm : walk P s.root with
        | none => simp [hwm] at hw
        | some m =>
          obtain ⟨m2, hw2, _⟩ := hle P m hwm
          exact Or.inr ⟨P, hP, by simp [hw2]⟩
  · intro k l hl
    exact hsub k l (by rw [hl])
  · intro k
    cases hl : (SubKeys s k).1 with
    | none => simp [sliceToList]
    | some l =>
      obtain ⟨l2, h2, hsl⟩ := hsub k l hl
      simpa [sliceToList, h2] using hsl

/-- Witness of C20: after `Set("a.b")`, the calls `Set("a.c")`, the failing `Set("a")`
and `AddFile("f")` keep `Has("a")` true, and `SubKeys("a")` grows from `["b"]` to
`["b", "c"]`. -/
theorem nothing_removed_witness :
    Has (AddFile (Set (Set (Set NewStorage "a.b" "v" 0).1 "a.c" "w" 0).1 "a" "x" 0).1
      "f").1 "a" = true ∧
    SubKeys (Set NewStorage "a.b" "v" 0).1 "a" = (some ["b"], none) ∧
    SubKeys (AddFile (Set (Set (Set NewStorage "a.b" "v" 0).1 "a.c" "w" 0).1 "a" "x" 0).1
      "f").1 "a" = (some ["b", "c"], none) :=
  ⟨(nothing_removed (Set NewStorage "a.b" "v" 0).1
      (AddFile (Set (Set (Set NewStorage "a.b" "v" 0).1 "a.c" "w" 0).1 "a" "x" 0).1 "f").1
      (Reachable.set _ _ _ _ Reachable.new)
      (ReachableFrom.addFile _ _ (ReachableFrom.set _ _ _ _
        (ReachableFrom.set _ _ _ _ ReachableFrom.refl)))).1 "a" (by decide),
    by decide, by decide⟩

/-! ## The codec round trip -/

theorem joinRest_key_data (e : String) (ps : List Path) :
    (joinRest (⟨.Key, e⟩ :: ps)).data = '.' :: (e.data ++ (joinRest ps).data) := by
  simp [joinRest, String.data_append]

theorem joinRest_index_data (e : String) (ps : List Path) :
    (joinRest (⟨.Index, e⟩ :: ps)).data = '[' :: (e.data ++ ']' :: (joinRest ps).data) := by
  simp [joinRest, String.data_append]

theorem JoinPath_key_data (e : String) (ps : List Path) :
    (JoinPath (⟨.Key, e⟩ :: ps)).data = e.data ++ (joinRest ps).data := by
  simp [JoinPath, String.data_append]

theorem JoinPath_index_data (e : String) (ps : List Path) :
    (JoinPath (⟨.Index, e⟩ :: ps)).data = '[' :: (e.data ++ ']' :: (joinRest ps).data) := by
  simp [JoinPath, String.data_append]

/-- What the decoder has read and still reads is the encoding of the segments it
returns, in each of its states. -/
theorem splitLoop_join (cs : List Char) :
    (∀ acc ps, splitLoop (.inKey acc) cs = some ps →
      ∃ e tl, ps = ⟨.Key, e⟩ :: tl ∧ acc ++ cs = e.data ++ (joinRest tl).data) ∧
    (∀ ps, splitLoop .afterDot cs = some ps → '.' :: cs = (joinRest ps).data) ∧
    (∀ acc ps, splitLoop (.inIndex acc) cs = some ps →
      ∃ e tl, ps = ⟨.Index, e⟩ :: tl ∧ acc ++ cs = e.data ++ ']' :: (joinRest tl).data) ∧
    (∀ ps, splitLoop .afterIndex cs = some ps → cs = (joinRest ps).data) := by
  induction cs with
  | nil =>
    refine ⟨?_, ?_, ?_, ?_⟩
    · intro acc ps h
      simp only [splitLoop, Option.some.injEq] at h
      exact ⟨String.mk acc, [], h.symm, by simp [joinRest]⟩
    · intro ps h; simp [splitLoop] at h
    · intro acc ps h; simp [splitLoop] at h
    · intro ps h
      simp only [splitLoop, Option.some.injEq] at h
      rw [← h]; rfl
  | cons c cs ih =>
    obtain ⟨ihK, ihD, ihI, ihA⟩ := ih
    have hIdx : ∀ ps, splitLoop (.inIndex []) cs = some ps →
        '[' :: cs = (joinRest ps).data := by
      intro ps h
      obtain ⟨e, tl, hps, hcs⟩ := ihI [] ps h
      rw [hps, joinRest_index_data, ← hcs]
      rfl
    refine ⟨?_, ?_, ?_, ?_⟩
    · intro acc ps h
      simp only [splitLoop] at h
      split_ifs at h with h1 h2 h3
      · obtain ⟨tl, htl, hps⟩ := Option.map_eq_some'.1 h
        refine ⟨String.mk acc, tl, hps.symm, ?_⟩
        rw [h1, ihD tl htl]
      · obtain ⟨tl, htl, hps⟩ := Option.map_eq_some'.1 h
        refine ⟨String.mk acc, tl, hps.symm, ?_⟩
        rw [h2, hIdx tl htl]
      · obtain ⟨e, tl, hps, hcs⟩ := ihK (acc ++ [c]) ps h
        exact ⟨e, tl, hps, by rw [← hcs]; simp⟩
    · intro ps h
      simp only [splitLoop] at h
      split_ifs at h with h1
      obtain ⟨e, tl, hps, hcs⟩ := ihK [c] ps h
      rw [hps, joinRest_key_data, ← hcs]
      rfl
    · intro acc ps h
      simp only [splitLoop] at h
      split_ifs at h with h1 h2 h3
      · obtain ⟨tl, htl, hps⟩ := Option.map_eq_some'.1 h
        refine ⟨String.mk acc, tl, hps.symm, ?_⟩
        rw [h1, ihA tl htl]
      · obtain ⟨e, tl, hps, hcs⟩ := ihI (acc ++ [c]) ps h
        exact ⟨e, tl, hps, by rw [← hcs]; simp⟩
    · intro ps h
      simp only [splitLoop] at h
      split_ifs at h with h1 h2
      · rw [h1]; exact hIdx ps h
      · rw [h2]; exact ihD ps h

/-- The encoding of a decoded path is the string that was decoded. -/
theorem JoinPath_SplitPath (key : String) (P : List Path) (h : SplitPath key = .ok P) :
    JoinPath P = key := by
  unfold SplitPath at h
  generalize hr : splitLoop .start key.toList = o at h
  cases o with
  | none => cases h
  | some r =>
    cases h
    change splitLoop .start key.data = some P at hr
    apply String.ext
    cases hk : key.data with
    | nil => simp [hk, splitLoop] at hr
    | cons c cs =>
      rw [hk] at hr
      simp only [splitLoop] at hr
      split_ifs at hr with h1 h2
      · obtain ⟨e, tl, hps, hcs⟩ := (splitLoop_join cs).2.2.1 [] P hr
        rw [hps, JoinPath_index_data, ← hcs, h1]
        rfl
      · obtain ⟨e, tl, hps, hcs⟩ := (splitLoop_join cs).1 [c] P hr
        rw [hps, JoinPath_key_data, ← hcs]
        rfl

/-- C17 (codec round trip).  For every string `key` on which `SplitPath` succeeds with
the segments `P`, `JoinPath(P)` is `key`; and when `Set(key, val, file)` returns no
error, the key decodes and the value is recorded in the flat map under the encoding
`JoinPath` of its decoded path. -/
theorem codec_round_trip (key : String) (P : List Path) (h : SplitPath key = .ok P) :
    JoinPath P = key ∧
    ∀ (s : Storage) (val : String) (file : Int), (Set s key val file).2 = none →
      mapGet (Set s key val file).1.data (JoinPath P) = some ⟨file, val⟩ := by
  have hj := JoinPath_SplitPath key P h
  refine ⟨hj, ?_⟩
  intro s val file hok
  obtain ⟨path, _, _, _, _, hst⟩ := Set_ok s key val file hok
  rw [hst, hj]
  exact mapGet_mapSet_self _ _ _

/-- Witness of C17: the key `users[0].profile.age`. -/
theorem codec_round_trip_witness :
    JoinPath [⟨.Key, "users"⟩, ⟨.Index, "0"⟩, ⟨.Key, "profile"⟩, ⟨.Key, "age"⟩]
      = "users[0].profile.age" :=
  (codec_round_trip "users[0].profile.age"
    [⟨.Key, "users"⟩, ⟨.Index, "0"⟩, ⟨.Key, "profile"⟩, ⟨.Key, "age"⟩] (by decide)).1

/-! ## Decoding an encoded path -/

theorem isDigit_ne_bracket (c : Char) (h : c.isDigit = true) : c ≠ ']' := by
  intro e
  rw [e] at h
  exact absurd h (by decide)

/-- The decoder produces well-formed segments, in each of its states. -/
theorem splitLoop_wf (cs : List Char) :
    (∀ acc ps, acc ≠ [] → (∀ c ∈ acc, c ≠ '.' ∧ c ≠ '[' ∧ c ≠ ']') →
      splitLoop (.inKey acc) cs = some ps → ∀ p ∈ ps, p.WF) ∧
    (∀ ps, splitLoop .afterDot cs = some ps → ∀ p ∈ ps, p.WF) ∧
    (∀ acc ps, (∀ c ∈ acc, c.isDigit = true) →
      splitLoop (.inIndex acc) cs = some ps → ∀ p ∈ ps, p.WF) ∧
    (∀ ps, splitLoop .afterIndex cs = some ps → ∀ p ∈ ps, p.WF) := by
  induction cs with
  | nil =>
    refine ⟨?_, ?_, ?_, ?_⟩
    · intro acc ps hne hacc h p hp
      simp only [splitLoop, Option.some.injEq] at h
      rw [← h] at hp
      simp only [List.mem_singleton] at hp
      rw [hp]
      exact ⟨hne, hacc⟩
    · intro ps h; simp [splitLoop] at h
    · intro acc ps _ h; simp [splitLoop] at h
    · intro ps h p hp
      simp only [splitLoop, Option.some.injEq] at h
      rw [← h] at hp
      simp at hp
  | cons c cs ih =>
    obtain ⟨ihK, ihD, ihI, ihA⟩ := ih
    refine ⟨?_, ?_, ?_, ?_⟩
    · intro acc ps hne hacc h p hp
      simp only [splitLoop] at h
      split_ifs at h with h1 h2 h3
      · obtain ⟨tl, htl, hps⟩ := Option.map_eq_some'.1 h
        rw [← hps] at hp
        rcases List.mem_cons.1 hp with hp | hp
        · rw [hp]; exact ⟨hne, hacc⟩
        · exact ihD tl htl p hp
      · obtain ⟨tl, htl, hps⟩ := Option.map_eq_some'.1 h
        rw [← hps] at hp
        rcases List.mem_cons.1 hp with hp | hp
        · rw [hp]; exact ⟨hne, hacc⟩
        · exact ihI [] tl (by simp) htl p hp
      · refine ihK (acc ++ [c]) ps (by simp) ?_ h p hp
        intro c2 hc2
        rcases List.mem_append.1 hc2 with hc2 | hc2
        · exact hacc c2 hc2
        · simp only [List.mem_singleton] at hc2
          rw [hc2]
          exact ⟨h1, h2, h3⟩
    · intro ps h p hp
      simp only [splitLoop] at h
      split_ifs at h with h1
      refine ihK [c] ps (by simp) ?_ h p hp
      intro c2 hc2
      simp only [List.mem_singleton] at hc2
      rw [hc2]
      exact ⟨fun e => h1 (Or.inl e), fun e => h1 (Or.inr (Or.inl e)),
        fun e => h1 (Or.inr (Or.inr e))⟩
    · intro acc ps hacc h p hp
      simp only [splitLoop] at h
      split_ifs at h with h1 h2 h3
      · obtain ⟨tl, htl, hps⟩ := Option.map_eq_some'.1 h
        rw [← hps] at hp
        rcases List.mem_cons.1 hp with hp | hp
        · rw [hp]; exact ⟨h2, hacc⟩
        · exact ihA tl htl p hp
      · refine ihI (acc ++ [c]) ps ?_ h p hp
        intro c2 hc2
        rcases List.mem_append.1 hc2 with hc2 | hc2
        · exact hacc c2 hc2
        · simp only [List.mem_singleton] at hc2
          rw [hc2]
          exact h3
    · intro ps h p hp
      simp only [splitLoop] at h
      split_ifs at h with h1 h2
      · exact ihI [] ps (by simp) h p hp
      · exact ihD ps h p hp

/-- The segments of a decoded path are well formed. -/
theorem SplitPath_wf (key : String) (P : List Path) (h : SplitPath key = .ok P) :
    ∀ p ∈ P, p.WF := by
  unfold SplitPath at h
  generalize hr : splitLoop .start key.toList = o at h
  cases o with
  | none => cases h
  | some r =>
    cases h
    change splitLoop .start key.data = some P at hr
    cases hk : key.data with
    | nil => simp [hk, splitLoop] at hr
    | cons c cs =>
      rw [hk] at hr
      simp only [splitLoop] at hr
      split_ifs at hr with h1 h2
      · exact (splitLoop_wf cs).2.2.1 [] P (by simp) hr
      · refine (splitLoop_wf cs).1 [c] P (by simp) ?_ hr
        intro c2 hc2
        simp only [List.mem_singleton] at hc2
        rw [hc2]
        exact ⟨fun e => h2 (Or.inl e), h1, fun e => h2 (Or.inr e)⟩

theorem splitLoop_inKey_run (es : List Char) (J : List Char)
    (hes : ∀ c ∈ es, c ≠ '.' ∧ c ≠ '[' ∧ c ≠ ']') :
    ∀ acc, splitLoop (.inKey acc) (es ++ J) = splitLoop (.inKey (acc ++ es)) J := by
  induction es with
  | nil => intro acc; simp
  | cons c es ih =>
    intro acc
    obtain ⟨h1, h2, h3⟩ := hes c (by simp)
    rw [List.cons_append]
    simp only [splitLoop, h1, h2, h3, if_false]
    rw [ih (fun c2 hc2 => hes c2 (by simp [hc2])) (acc ++ [c])]
    simp

theorem splitLoop_inIndex_run (es : List Char) (J : List Char)
    (hes : ∀ c ∈ es, c.isDigit = true) :
    ∀ acc, splitLoop (.inIndex acc) (es ++ J) = splitLoop (.inIndex (acc ++ es)) J := by
  induction es with
  | nil => intro acc; simp
  | cons c es ih =>
    intro acc
    have h1 := hes c (by simp)
    have h2 := isDigit_ne_bracket c h1
    rw [List.cons_append]
    simp only [splitLoop, h1, h2, if_false, if_true]
    rw [ih (fun c2 hc2 => hes c2 (by simp [hc2])) (acc ++ [c])]
    simp

/-- The decoder reads the encoding of well-formed segments back, after an index segment
and at the end of a key segment. -/
theorem splitLoop_joinRest (tl : List Path) (hwf : ∀ p ∈ tl, p.WF) :
    splitLoop .afterIndex (joinRest tl).data = some tl ∧
    ∀ acc, splitLoop (.inKey acc) (joinRest tl).data = some (⟨.Key, String.mk acc⟩ :: tl) := by
  induction tl with
  | nil =>
    refine ⟨by simp [joinRest, splitLoop], ?_⟩
    intro acc
    simp [joinRest, splitLoop]
  | cons p tl ih =>
    obtain ⟨ihA, ihK⟩ := ih (fun q hq => hwf q (by simp [hq]))
    have hp := hwf p (by simp)
    obtain ⟨t, e⟩ := p
    cases t with
    | Key =>
      obtain ⟨hne, hes⟩ : e.data ≠ [] ∧ ∀ c ∈ e.data, c ≠ '.' ∧ c ≠ '[' ∧ c ≠ ']' := hp
      have hdot : splitLoop .afterDot (e.data ++ (joinRest tl).data)
          = some (⟨.Key, e⟩ :: tl) := by
        cases hed : e.data with
        | nil => exact absurd hed hne
        | cons c0 es =>
          rw [hed] at hes
          obtain ⟨h1, h2, h3⟩ := hes c0 (by simp)
          rw [List.cons_append]
          simp only [splitLoop, h1, h2, h3, or_self, if_false]
          rw [splitLoop_inKey_run es _ (fun c2 hc2 => hes c2 (by simp [hc2])) [c0], ihK]
          have : String.mk ([c0] ++ es) = e := by
            apply String.ext
            simp [hed]
          rw [this]
      rw [joinRest_key_data]
      refine ⟨?_, ?_⟩
      · simp [splitLoop, hdot]
      · intro acc
        simp [splitLoop, hdot]
    | Index =>
      obtain ⟨hne, hes⟩ : e.data ≠ [] ∧ ∀ c ∈ e.data, c.isDigit = true := hp
      have hidx : splitLoop (.inIndex []) (e.data ++ ']' :: (joinRest tl).data)
          = some (⟨.Index, e⟩ :: tl) := by
        rw [splitLoop_inIndex_run e.data _ hes []]
        simp [splitLoop, hne, ihA]
      rw [joinRest_index_data]
      refine ⟨?_, ?_⟩
      · simp [splitLoop, hidx]
      · intro acc
        simp [splitLoop, hidx]

/-- Decoding the encoding of a non-empty sequence of well-formed segments gives the
segments. -/
theorem SplitPath_JoinPath (P : List Path) (hne : P ≠ []) (hwf : ∀ p ∈ P, p.WF) :
    SplitPath (JoinPath P) = .ok P := by
  have hmain : splitLoop .start (JoinPath P).data = some P := by
    cases P with
    | nil => exact absurd rfl hne
    | cons p tl =>
      obtain ⟨_, ihK⟩ := splitLoop_joinRest tl (fun q hq => hwf q (by simp [hq]))
      obtain ⟨ihA, _⟩ := splitLoop_joinRest tl (fun q hq => hwf q (by simp [hq]))
      have hp := hwf p (by simp)
      obtain ⟨t, e⟩ := p
      cases t with
      | Key =>
        obtain ⟨hne2, hes⟩ : e.data ≠ [] ∧ ∀ c ∈ e.data, c ≠ '.' ∧ c ≠ '[' ∧ c ≠ ']' := hp
        rw [JoinPath_key_data]
        cases hed : e.data with
        | nil => exact absurd hed hne2
        | cons c0 es =>
          rw [hed] at hes
          obtain ⟨h1, h2, h3⟩ := hes c0 (by simp)
          rw [List.cons_append]
          simp only [splitLoop, h1, h2, h3, or_self, if_false]
          rw [splitLoop_inKey_run es _ (fun c2 hc2 => hes c2 (by simp [hc2])) [c0], ihK]
          have : String.mk ([c0] ++ es) = e := by
            apply String.ext
            simp [hed]
          rw [this]
      | Index =>
        obtain ⟨hne2, hes⟩ : e.data ≠ [] ∧ ∀ c ∈ e.data, c.isDigit = true := hp
        rw [JoinPath_index_data]
        have hrun := splitLoop_inIndex_run e.data (']' :: (joinRest tl).data) hes []
        simp [splitLoop, hrun, hne2, ihA]
  unfold SplitPath
  change (match splitLoop .start (JoinPath P).data with
    | some path => Except.ok path
    | none => Except.error (Error.parse (JoinPath P))) = _
  rw [hmain]

/-! ## The path named by a conflict error -/

theorem conflictError_inj (a b : String) (h : conflictError a = conflictError b) :
    a = b := by
  unfold conflictError at h
  have h1 : "property conflict at path " ++ a = "property conflict at path " ++ b := by
    injection h
  have h2 := congrArg String.data h1
  rw [String.data_append, String.data_append] at h2
  exact String.ext (List.append_cancel_left h2)

theorem walk_of_blocks (m : Option treeNode) (x : Path) (tl : List Path)
    (h : blocks m x) : walk (x :: tl) m = none := by
  rcases h with h | ⟨t, d, h, hx⟩
  · subst h; rfl
  · subst h; simp [walk, hx]

/-- The method `Has` on the encoding of well-formed segments whose walk resolves. -/
theorem Has_JoinPath_of_walk (s : Storage) (P : List Path) (hne : P ≠ [])
    (hwf : ∀ p ∈ P, p.WF) (hr : s.root ≠ none) (hw : (walk P s.root).isSome = true) :
    Has s (JoinPath P) = true := by
  have hdec := SplitPath_JoinPath P hne hwf
  rw [Has_iff_walk]
  exact ⟨SplitPath_ok_ne_empty _ P hdec, hr, Or.inr ⟨P, hdec, hw⟩⟩

theorem walk_take_isSome (P : List Path) (n m : Option treeNode) (i : Nat)
    (h : walk P n = some m) : (walk (P.take i) n).isSome = true := by
  rw [← List.take_append_drop i P] at h
  obtain ⟨m1, hw1, _⟩ := walk_prefix_isSome _ _ _ _ h
  simp [hw1]

/-- C13 (a conflict error names the shortest conflicting sub-path).  In a storage reached
from `NewStorage`, let the key `p` decode to `P` and let `Set(p, v, f)` return the error
"property conflict at path r".  Then `r` is the encoding of the first `j` segments of
`P` for some `j ≥ 1`; `Has` is true for the encoding of every shorter non-empty prefix of
`P`; and either `Has(r)` is false, or `r` is the whole key `p` and the walk of `P` ends
at a container. -/
theorem conflict_names_shortest (s : Storage) (hs : Reachable s) (p val : String)
    (file : Int) (P : List Path) (r : String) (hP : SplitPath p = .ok P)
    (herr : (Set s p val file).2 = some (conflictError r)) :
    ∃ j, 1 ≤ j ∧ j ≤ P.length ∧ r = JoinPath (P.take j) ∧
      (∀ i, 1 ≤ i → i < j → Has s (JoinPath (P.take i)) = true) ∧
      (Has s r = false ∨
        (r = p ∧ j = P.length ∧ ∃ m, walk P s.root = some (some m))) := by
  have hinv := Inv_of_reachable s hs
  have hwf := SplitPath_wf p P hP
  have hPne := SplitPath_ne_nil p P hP
  have hwft : ∀ i, ∀ q ∈ P.take i, q.WF := fun i q hq => hwf q (List.mem_of_mem_take hq)
  have htne : ∀ i, 1 ≤ i → P.take i ≠ [] := by
    intro i hi e
    have h1 := List.length_take i P
    rw [e, List.length_nil] at h1
    have hlen : 0 < P.length := List.length_pos.2 hPne
    omega
  by_cases hrne : s.root = none
  · rw [Set_ok_of_root_none s p val file P hP hrne] at herr
    cases herr
  · obtain ⟨r0, hr⟩ := Option.ne_none_iff_exists'.1 hrne
    obtain ⟨o1, o2, o3, o4⟩ := Set_outcome s p val file P r0 hP hr
    rcases walk_cases P s.root with ⟨m, hm⟩ | ⟨common, x, tl, m, he, hw, hb⟩ |
        ⟨common, x, tl, t, d, he, hw, hx, hg⟩
    · cases m with
      | none =>
        rw [o1 hm] at herr
        cases herr
      | some m0 =>
        rw [o2 m0 hm] at herr
        have hrp : r = p := (conflictError_inj _ _ (Option.some.inj herr)).symm
        refine ⟨P.length, List.length_pos.2 hPne, le_refl _, ?_, ?_, Or.inr ⟨hrp, rfl, m0, hm⟩⟩
        · rw [List.take_length, JoinPath_SplitPath p P hP, hrp]
        · intro i hi _
          exact Has_JoinPath_of_walk s _ (htne i hi) (hwft i) hrne
            (walk_take_isSome P s.root _ i hm)
    · rw [o3 common x tl m he hw hb] at herr
      have hrj : r = JoinPath (P.take (common.length + 1)) :=
        (conflictError_inj _ _ (Option.some.inj herr)).symm
      have htake : P.take (common.length + 1) = common ++ [x] := by
        rw [he]
        simp [List.take_append_eq_append_take]
      have hblocked : walk (common ++ [x]) s.root = none := by
        rw [walk_append, hw]
        exact walk_of_blocks m x [] hb
      refine ⟨common.length + 1, by omega, ?_, hrj, ?_, Or.inl ?_⟩
      · rw [he]; simp
      · intro i hi hlt
        have hti : P.take i = common.take i := by
          rw [he, List.take_append_eq_append_take]
          have : i - common.length = 0 := by omega
          simp [this]
        have := walk_take_isSome common s.root _ i hw
        rw [← hti] at this
        exact Has_JoinPath_of_walk s _ (htne i hi) (hwft i) hrne this
      · have hdec : SplitPath r = .ok (common ++ [x]) := by
          rw [hrj, htake]
          refine SplitPath_JoinPath _ (by simp) ?_
          rw [← htake]
          exact hwft _
        cases hh : Has s r with
        | false => rfl
        | true =>
          exfalso
          obtain ⟨_, _, hk | ⟨P2, hP2, hw2⟩⟩ := (Has_iff_walk s r).1 hh
          · obtain ⟨P3, hP3, hw3⟩ := hinv.leafOfKey r hk
            rw [hdec] at hP3
            cases hP3
            rw [hblocked] at hw3
            cases hw3
          · rw [hdec] at hP2
            cases hP2
            rw [hblocked] at hw2
            simp at hw2
    · rw [o4 common x tl t d he hw hx hg] at herr
      cases herr

/-- Witness of C13: after `Set("a.b")`, the call `Set("a.b.c.d")` names `a.b.c`. -/
theorem conflict_names_shortest_witness :
    ∃ j, 1 ≤ j ∧ j ≤ [(⟨.Key, "a"⟩ : Path), ⟨.Key, "b"⟩, ⟨.Key, "c"⟩, ⟨.Key, "d"⟩].length ∧
      "a.b.c" = JoinPath (List.take j [⟨.Key, "a"⟩, ⟨.Key, "b"⟩, ⟨.Key, "c"⟩, ⟨.Key, "d"⟩]) ∧
      (∀ i, 1 ≤ i → i < j → Has (Set NewStorage "a.b" "v" 0).1
        (JoinPath (List.take i [⟨.Key, "a"⟩, ⟨.Key, "b"⟩, ⟨.Key, "c"⟩, ⟨.Key, "d"⟩]))
          = true) ∧
      (Has (Set NewStorage "a.b" "v" 0).1 "a.b.c" = false ∨
        ("a.b.c" = "a.b.c.d" ∧
          j = [(⟨.Key, "a"⟩ : Path), ⟨.Key, "b"⟩, ⟨.Key, "c"⟩, ⟨.Key, "d"⟩].length ∧
          ∃ m, walk [⟨.Key, "a"⟩, ⟨.Key, "b"⟩, ⟨.Key, "c"⟩, ⟨.Key, "d"⟩]
            (Set NewStorage "a.b" "v" 0).1.root = some (some m))) :=
  conflict_names_shortest (Set NewStorage "a.b" "v" 0).1
    (Reachable.set _ _ _ _ Reachable.new) "a.b.c.d" "w" 0
    [⟨.Key, "a"⟩, ⟨.Key, "b"⟩, ⟨.Key, "c"⟩, ⟨.Key, "d"⟩] "a.b.c" (by decide) (by decide)

end Barky
